import Mathlib

/-!
Verification of the campus-navigation routing core.

This file gives a shallow embedding of the routing core of the
Virtual-Campus-Navigation-System repository (`src/src/Location.cpp`,
`src/src/Graph.h`, `src/src/Path.cpp`, `src/src/Navigator.cpp`,
`src/src/NavigationMode.h`, `src/src/WalkingMode.h`, `src/src/CyclingMode.h`)
and proves properties of the embedded definitions.

Modelling conventions:
* C++ `double` is modelled by `ℚ` (exact arithmetic); the special value
  `std::numeric_limits<double>::infinity()` used by Dijkstra is modelled by
  `Option ℚ` with `none` playing the role of `INF`.
* A `Location*` pointer is modelled by a `Nat` identifier (the pointer value);
  the pointed-to object's data enters only through two abstract parameters:
  `gd : Nat → Nat → ℚ` models `Location::distanceTo` of the pointed objects
  (the haversine formula uses transcendental functions, so it is kept as a
  parameter; none of the proved routing properties depend on its values), and
  `gid : Nat → Int` models `Location::getId`.
* Thrown C++ exceptions are modelled by `Except NavError`; the error kinds
  below correspond to the exception classes of the source.
* The two unbounded `while` loops (`dijkstraShortestPath`'s main loop and
  `reconstructPath`'s backtracking loop) are modelled by fuel-indexed
  recursion; exhausting the fuel yields the artificial error
  `NavError.nonTermination`, and the fuel passed by the callers is proved
  sufficient, so this artificial outcome is unreachable.
-/

namespace Campus

/-- Error kinds of the routing core.  `invalidArgument` models
`InvalidLocationException` / `std::invalid_argument` / `ViaSelectionException`,
`pathNotFound` models `PathNotFoundException`, `notFound` models the
`std::runtime_error` thrown by `Graph::getEdgeWeight`, `undefinedBehavior`
marks an out-of-bounds `std::vector` access (which is undefined behaviour in
the source, not an exception), and `nonTermination` is the fuel artifact
described in the file comment. -/
inductive NavError where
  | invalidArgument
  | pathNotFound
  | notFound
  | undefinedBehavior
  | nonTermination
deriving DecidableEq, Repr

/-- Value record of a `Location` object (`src/src/Location.h`): display name,
latitude, longitude, description and integer id. -/
structure Location where
  name : String
  latitude : ℚ
  longitude : ℚ
  description : String
  id : Int
deriving DecidableEq, Repr

/-- Embeds the parameterized constructor `Location::Location(name, lat, lon,
desc, id)` (`src/src/Location.cpp` lines 29-35): it stores `name`, `desc` and
`id` unconditionally and then calls `setLatitude` and `setLongitude`, which
throw `std::invalid_argument` when the coordinate is out of range.  The
constructor never calls `setName`, so the name is not validated. -/
def locationCtor (name : String) (lat lon : ℚ) (desc : String) (id : Int) :
    Except NavError Location :=
  if lat < -90 ∨ 90 < lat then .error .invalidArgument
  else if lon < -180 ∨ 180 < lon then .error .invalidArgument
  else .ok ⟨name, lat, lon, desc, id⟩

/-- Embeds the `NavigationMode` base-class data (`src/src/NavigationMode.h`):
a mode name and an average speed in km/h. -/
structure NavigationMode where
  modeName : String
  averageSpeed : ℚ
deriving DecidableEq, Repr

/-- Embeds `WalkingMode::calculateTime` and `CyclingMode::calculateTime`
(`src/src/WalkingMode.h`, `src/src/CyclingMode.h`): both compute
`distanceMeters / (averageSpeed_ * 1000 / 60)` minutes. -/
def calculateTime (m : NavigationMode) (distanceMeters : ℚ) : ℚ :=
  distanceMeters / (m.averageSpeed * 1000 / 60)

/-- Embeds the `WalkingMode` constructor: name "Walking", 5 km/h. -/
def walkingMode : NavigationMode := ⟨"Walking", 5⟩

/-- Embeds the `CyclingMode` constructor: name "Cycling", 15 km/h. -/
def cyclingMode : NavigationMode := ⟨"Cycling", 15⟩

/-- Embeds the template class `Graph<T>` (`src/src/Graph.h`): an adjacency
list mapping each node to its ordered edge list.  The `std::map` is modelled
by an association list with unique keys; the map's key ordering only affects
`getAllNodes`, which no verified property consults. -/
structure Graph (T : Type) where
  adjacencyList : List (T × List (T × ℚ))
deriving DecidableEq, Repr

/-- Empty graph (`Graph::Graph()`). -/
def emptyGraph (T : Type) : Graph T := ⟨[]⟩

/-- Association-list lookup, modelling `adjacencyList_.find(node)`. -/
def findEntry {T : Type} [DecidableEq T] (g : Graph T) (node : T) :
    Option (List (T × ℚ)) :=
  (g.adjacencyList.find? (fun p => p.1 = node)).map (·.2)

/-- Embeds `Graph::addNode`: inserts the node with an empty edge list if it is
absent, otherwise does nothing. -/
def addNode {T : Type} [DecidableEq T] (g : Graph T) (node : T) : Graph T :=
  match findEntry g node with
  | some _ => g
  | none => ⟨g.adjacencyList ++ [(node, [])]⟩

/-- Update the edge list of an existing key in the adjacency list. -/
def setEdges {T : Type} [DecidableEq T] (g : Graph T) (node : T)
    (es : List (T × ℚ)) : Graph T :=
  ⟨g.adjacencyList.map (fun p => if p.1 = node then (p.1, es) else p)⟩

/-- Embeds `Graph::addEdge`: ensures both endpoints exist, then appends the
edge `(to, weight)` to the back of `from`'s edge list. -/
def addEdge {T : Type} [DecidableEq T] (g : Graph T) (f t : T) (weight : ℚ) :
    Graph T :=
  let g1 := addNode (addNode g f) t
  setEdges g1 f (((findEntry g1 f).getD []) ++ [(t, weight)])

/-- Embeds `Graph::addUndirectedEdge`: two directed edges of equal weight. -/
def addUndirectedEdge {T : Type} [DecidableEq T] (g : Graph T) (a b : T)
    (weight : ℚ) : Graph T :=
  addEdge (addEdge g a b weight) b a weight

/-- Embeds `Graph::getNeighbors`: the edge list of the node, or `[]` when the
node is absent. -/
def getNeighbors {T : Type} [DecidableEq T] (g : Graph T) (node : T) :
    List (T × ℚ) :=
  (findEntry g node).getD []

/-- Embeds `Graph::hasNode`. -/
def hasNode {T : Type} [DecidableEq T] (g : Graph T) (node : T) : Bool :=
  (findEntry g node).isSome

/-- Embeds `Graph::hasEdge`: whether `from`'s edge list contains an edge to
`to`. -/
def hasEdge {T : Type} [DecidableEq T] (g : Graph T) (f t : T) : Bool :=
  match findEntry g f with
  | none => false
  | some es => es.any (fun e => e.1 = t)

/-- Embeds `Graph::getEdgeWeight`: the weight of the first matching edge;
throws (`std::runtime_error`, kind `notFound`) when the source node or the
edge is absent. -/
def getEdgeWeight {T : Type} [DecidableEq T] (g : Graph T) (f t : T) :
    Except NavError ℚ :=
  match findEntry g f with
  | none => .error .notFound
  | some es =>
    match es.find? (fun e => e.1 = t) with
    | none => .error .notFound
    | some e => .ok e.2

/-- Embeds the class `Path` (`src/src/Path.h`): an ordered sequence of
`Location*` (here: `Nat` pointer identifiers) together with the cached total
distance in meters. -/
structure Path where
  nodes : List Nat
  total : ℚ
deriving DecidableEq, Repr

/-- The default-constructed empty path (`Path::Path()`). -/
def emptyPath : Path := ⟨[], 0⟩

/-- Embeds `Path::addLocation` (`src/src/Path.cpp` lines 22-34) for a
non-null location: when the path is non-empty it adds the `distanceTo`
distance (modelled by the parameter `gd`) from the last node to the running
total; then it appends the node.  The null-pointer check of the source cannot
fire here because a `Nat` identifier always denotes an object. -/
def addLocation (gd : Nat → Nat → ℚ) (p : Path) (loc : Nat) : Path :=
  match p.nodes.getLast? with
  | none => ⟨[loc], p.total⟩
  | some lastLoc => ⟨p.nodes ++ [loc], p.total + gd lastLoc loc⟩

/-- Sum of the pairwise consecutive `distanceTo` distances of a node list;
this is the quantity `Path::calculateTotalDistance` computes. -/
def pairwiseDistSum (gd : Nat → Nat → ℚ) : List Nat → ℚ
  | [] => 0
  | [_] => 0
  | a :: b :: rest => gd a b + pairwiseDistSum gd (b :: rest)

/-- Embeds `Path::setTotalDistance`: overrides the cached total, throwing
`std::invalid_argument` when the distance is negative. -/
def setTotalDistance (p : Path) (dist : ℚ) : Except NavError Path :=
  if dist < 0 then .error .invalidArgument
  else .ok ⟨p.nodes, dist⟩

/-- Embeds the path-building loop of `Navigator::reconstructPath`
(`src/src/Navigator.cpp` lines 188-194): start from an empty path and add
each location in turn (`Path(loc)` for the first node equals `addLocation`
on an empty path: singleton node list, total 0). -/
def buildPath (gd : Nat → Nat → ℚ) (locs : List Nat) : Path :=
  locs.foldl (addLocation gd) emptyPath

/-- Embeds `Path::operator+` (`src/src/Path.cpp` lines 87-113): re-add the
left path's nodes one by one, then append the right path's nodes, skipping
the right path's first node when its `getId` equals the `getId` of the
accumulated path's last node.  (Line 103 of the source reads
`other.locations_->getId()`; the intended and documented operand is the first
location of `other`, which is what the comment above the condition and the
`startIndex` skip implement.)  All distance accounting goes through
`addLocation`. -/
def joinStartIndex (gid : Nat → Int) (leftLast rightHead : Option Nat) : Nat :=
  match leftLast, rightHead with
  | some a, some b => if gid a = gid b then 1 else 0
  | _, _ => 0

def pathCombine (gd : Nat → Nat → ℚ) (gid : Nat → Int) (p other : Path) :
    Path :=
  let combined := p.nodes.foldl (addLocation gd) emptyPath
  (other.nodes.drop
      (joinStartIndex gid combined.nodes.getLast? other.nodes.head?)).foldl
    (addLocation gd) combined

/-- Embeds `Path::operator==` (`src/src/Path.cpp` lines 120-132): equal
lengths and pointwise equal `getId` sequences; the cached distance is not
compared. -/
def pathEq (gid : Nat → Int) (p q : Path) : Bool :=
  p.nodes.length = q.nodes.length &&
    (p.nodes.zip q.nodes).all (fun ab => gid ab.1 = gid ab.2)

/-- Embeds `Path::operator<`: compares cached total distances only. -/
def pathLt (p q : Path) : Bool := p.total < q.total

/-! ### Walks in a graph

`Walk g a l b c` states that `l` is a sequence of nodes leading from `a` to
`b` in the graph `g`, together with a choice of a graph edge for every
consecutive pair, whose weights sum to `c`.  This is the specification-side
notion of a start-to-end path; `findPath`'s result is compared against the
set of all walk costs. -/

/-- A walk in the graph with its node list and its cost. -/
inductive Walk (g : Graph Nat) : Nat → List Nat → Nat → ℚ → Prop where
  | refl (a : Nat) : Walk g a [a] a 0
  | tail {a b c : Nat} {l : List Nat} {rest w : ℚ} :
      Walk g a l b rest → (c, w) ∈ getNeighbors g b →
      Walk g a (l ++ [c]) c (rest + w)

/-- The set of costs of walks from `a` to `b` in `g`. -/
def walkCosts (g : Graph Nat) (a b : Nat) : Set ℚ :=
  {c | ∃ l, Walk g a l b c}

theorem Walk.head_eq {g : Graph Nat} {a b : Nat} {l : List Nat} {c : ℚ}
    (h : Walk g a l b c) : l.head? = some a := by
  induction h with
  | refl => rfl
  | @tail b' c' l' rest w hwk he ih =>
    cases l' with
    | nil => simp at ih
    | cons x xs => simpa using ih

theorem Walk.last_eq {g : Graph Nat} {a b : Nat} {l : List Nat} {c : ℚ}
    (h : Walk g a l b c) : l.getLast? = some b := by
  induction h with
  | refl => rfl
  | tail _ _ _ => simp

theorem Walk.ne_nil {g : Graph Nat} {a b : Nat} {l : List Nat} {c : ℚ}
    (h : Walk g a l b c) : l ≠ [] := by
  intro hl
  have := h.head_eq
  rw [hl] at this
  simp at this

/-- Walk costs are nonnegative when every edge weight of the graph is
nonnegative. -/
theorem Walk.cost_nonneg {g : Graph Nat}
    (hw : ∀ n, ∀ e ∈ getNeighbors g n, 0 ≤ e.2)
    {a b : Nat} {l : List Nat} {c : ℚ} (h : Walk g a l b c) : 0 ≤ c := by
  induction h with
  | refl => exact le_refl 0
  | @tail b' c' l' rest w hwk he ih =>
    have := hw b' _ he
    linarith

/-! ### Dijkstra's algorithm (`Navigator::dijkstraShortestPath`)

The loop state consists of the tentative-distance map (`none` models `INF`),
the predecessor map, the visited map (modelled as the list of nodes in the
order they were marked visited; `visited[x]` is membership in the list) and
the priority queue (a multiset of `(distance, location)` pairs, modelled as a
list from which `popMin` extracts the lexicographically least pair exactly as
`std::priority_queue<pair<double, Location*>, …, greater<…>>` does). -/

/-- The Dijkstra loop state. -/
structure DState where
  dist : Nat → Option ℚ
  prev : Nat → Option Nat
  visited : List Nat
  pq : List (ℚ × Nat)

/-- The strict-weak order used by the source's priority queue:
`std::greater<std::pair<double, Location*>>` pops the lexicographically least
`(distance, pointer)` pair. -/
def entryLe (a b : ℚ × Nat) : Bool :=
  if a.1 < b.1 then true
  else if b.1 < a.1 then false
  else a.2 ≤ b.2

theorem entryLe_total (a b : ℚ × Nat) : entryLe a b = true ∨ entryLe b a = true := by
  unfold entryLe
  rcases lt_trichotomy a.1 b.1 with h | h | h
  · left; simp [h]
  · rcases Nat.le_total a.2 b.2 with h2 | h2
    · left; simp [h, h2]
    · right; simp [h, h2]
  · right; simp [h]

theorem entryLe_trans {a b c : ℚ × Nat} (hab : entryLe a b = true)
    (hbc : entryLe b c = true) : entryLe a c = true := by
  unfold entryLe at hab hbc ⊢
  split_ifs at hab hbc ⊢ with h1 h2 h3 h4 h5 h6 <;>
    simp_all <;> linarith

/-- Select the least entry of a non-empty queue with respect to `entryLe`. -/
def pqMinAux (e : ℚ × Nat) (rest : List (ℚ × Nat)) : ℚ × Nat :=
  rest.foldl (fun a b => if entryLe a b then a else b) e

/-- Embeds one `pq.top(); pq.pop()` step: return the least entry and the
queue with one occurrence of it removed, or `none` when the queue is empty. -/
def popMin (pq : List (ℚ × Nat)) : Option ((ℚ × Nat) × List (ℚ × Nat)) :=
  match pq with
  | [] => none
  | e :: rest =>
    let m := pqMinAux e rest
    some (m, (e :: rest).erase m)

theorem pqMinAux_le (e : ℚ × Nat) (rest : List (ℚ × Nat)) :
    entryLe (pqMinAux e rest) e = true ∧
      ∀ x ∈ rest, entryLe (pqMinAux e rest) x = true := by
  induction rest generalizing e with
  | nil =>
    constructor
    · rcases entryLe_total e e with h | h <;> simpa [pqMinAux] using h
    · intro x hx; simp at hx
  | cons b rest ih =>
    have step : pqMinAux e (b :: rest) = pqMinAux (if entryLe e b then e else b) rest := rfl
    by_cases hb : entryLe e b = true
    · have h1 := ih e
      rw [step, if_pos hb]
      refine ⟨h1.1, ?_⟩
      intro x hx
      rcases List.mem_cons.mp hx with rfl | hx
      · exact entryLe_trans h1.1 hb
      · exact h1.2 x hx
    · have hbe : entryLe b e = true := (entryLe_total e b).resolve_left hb
      have h1 := ih b
      rw [step, if_neg hb]
      refine ⟨entryLe_trans h1.1 hbe, ?_⟩
      intro x hx
      rcases List.mem_cons.mp hx with rfl | hx
      · exact h1.1
      · exact h1.2 x hx

theorem pqMinAux_mem (e : ℚ × Nat) (rest : List (ℚ × Nat)) :
    pqMinAux e rest ∈ e :: rest := by
  induction rest generalizing e with
  | nil => simp [pqMinAux]
  | cons b rest ih =>
    have step : pqMinAux e (b :: rest) = pqMinAux (if entryLe e b then e else b) rest := rfl
    by_cases hb : entryLe e b = true
    · rw [step, if_pos hb]
      rcases List.mem_cons.mp (ih e) with h | h
      · exact List.mem_cons.mpr (Or.inl h)
      · exact List.mem_cons.mpr (Or.inr (List.mem_cons.mpr (Or.inr h)))
    · rw [step, if_neg hb]
      rcases List.mem_cons.mp (ih b) with h | h
      · exact List.mem_cons.mpr (Or.inr (List.mem_cons.mpr (Or.inl h)))
      · exact List.mem_cons.mpr (Or.inr (List.mem_cons.mpr (Or.inr h)))

theorem popMin_spec {pq : List (ℚ × Nat)} {m : ℚ × Nat}
    {rest : List (ℚ × Nat)} (h : popMin pq = some (m, rest)) :
    m ∈ pq ∧ (∀ x ∈ pq, entryLe m x = true) ∧ rest = pq.erase m ∧
      rest.length + 1 = pq.length := by
  match pq, h with
  | e :: tl, h =>
    simp only [popMin, Option.some.injEq, Prod.mk.injEq] at h
    obtain ⟨hm, hrest⟩ := h
    subst hm
    have hmem := pqMinAux_mem e tl
    have hle := pqMinAux_le e tl
    refine ⟨hmem, ?_, hrest.symm, ?_⟩
    · intro x hx
      rcases List.mem_cons.mp hx with rfl | hx
      · exact hle.1
      · exact hle.2 x hx
    · rw [← hrest]
      have := List.length_erase_of_mem hmem
      rw [this]
      have : 0 < (e :: tl).length := by simp
      omega

theorem popMin_none {pq : List (ℚ × Nat)} (h : popMin pq = none) : pq = [] := by
  cases pq with
  | nil => rfl
  | cons e tl => simp [popMin] at h

theorem mem_of_mem_erase {l : List (ℚ × Nat)} {a b : ℚ × Nat}
    (h : a ∈ l.erase b) : a ∈ l :=
  List.mem_of_mem_erase h

/-- Embeds the body of the neighbor loop of `dijkstraShortestPath`
(`src/src/Navigator.cpp` lines 136-149) for a single edge `e = (neighbor,
weight)`: compute `tentativeDist = currentDist + weight` and, when it
improves on the neighbor's tentative distance (`none` models `INF`), update
the distance, record the predecessor and push the improved entry. -/
def relax1 (cur : Nat) (currentDist : ℚ) (st : DState) (e : Nat × ℚ) : DState :=
  if (match st.dist e.1 with
      | none => true
      | some dn => decide (currentDist + e.2 < dn)) = true then
    { st with
      dist := fun x => if x = e.1 then some (currentDist + e.2) else st.dist x
      prev := fun x => if x = e.1 then some cur else st.prev x
      pq := st.pq ++ [(currentDist + e.2, e.1)] }
  else st

/-- The improvement condition of `relax1` as a proposition. -/
def Improves (st : DState) (t : ℚ) (m : Nat) : Prop :=
  st.dist m = none ∨ ∃ dm, st.dist m = some dm ∧ t < dm

theorem relax1_of_improves {cur : Nat} {d : ℚ} {st : DState} {e : Nat × ℚ}
    (h : Improves st (d + e.2) e.1) :
    relax1 cur d st e =
      { st with
        dist := fun x => if x = e.1 then some (d + e.2) else st.dist x
        prev := fun x => if x = e.1 then some cur else st.prev x
        pq := st.pq ++ [(d + e.2, e.1)] } := by
  unfold relax1
  rcases h with h | ⟨dm, hdm, hlt⟩
  · rw [h]
    rfl
  · rw [hdm]
    simp [hlt]

theorem relax1_of_not_improves {cur : Nat} {d : ℚ} {st : DState} {e : Nat × ℚ}
    (h : ¬ Improves st (d + e.2) e.1) : relax1 cur d st e = st := by
  unfold relax1
  unfold Improves at h
  push_neg at h
  cases hd : st.dist e.1 with
  | none => exact absurd hd h.1
  | some dm =>
    have := h.2 dm hd
    simp [this]

/-- The whole neighbor loop: fold `relax1` over `getNeighbors` in order. -/
def relaxAll (cur : Nat) (currentDist : ℚ) (edges : List (Nat × ℚ))
    (st : DState) : DState :=
  edges.foldl (relax1 cur currentDist) st

/-- Embeds the main Dijkstra loop (`src/src/Navigator.cpp` lines 116-150) as
fuel-indexed recursion: pop the least entry; skip it when the node is
visited; otherwise mark the node visited, stop when it is the destination,
and otherwise relax its outgoing edges.  `none` is the fuel-exhaustion
artifact (proved unreachable for the fuel used by the caller). -/
def dLoop (g : Graph Nat) (endN : Nat) : Nat → DState → Option DState
  | 0, _ => none
  | fuel + 1, st =>
    match popMin st.pq with
    | none => some st
    | some ((currentDist, cur), rest) =>
      if cur ∈ st.visited then dLoop g endN fuel { st with pq := rest }
      else
        let st1 := { st with pq := rest, visited := st.visited ++ [cur] }
        if cur = endN then some st1
        else dLoop g endN fuel (relaxAll cur currentDist (getNeighbors g cur) st1)

/-- Keys of the adjacency list. -/
def graphKeys (g : Graph Nat) : List Nat := g.adjacencyList.map (·.1)

/-- Termination measure of the Dijkstra loop: every unvisited graph node
contributes one potential settling step plus one potential push per outgoing
edge, and every queue entry contributes one pop. -/
def dMeasure (g : Graph Nat) (st : DState) : Nat :=
  (((graphKeys g).filter (fun n => n ∉ st.visited)).map
    (fun n => 1 + (getNeighbors g n).length)).sum + st.pq.length

theorem relax1_visited (cur : Nat) (d : ℚ) (st : DState) (e : Nat × ℚ) :
    (relax1 cur d st e).visited = st.visited := by
  by_cases h : Improves st (d + e.2) e.1
  · rw [relax1_of_improves h]
  · rw [relax1_of_not_improves h]

theorem relax1_pq_length (cur : Nat) (d : ℚ) (st : DState) (e : Nat × ℚ) :
    (relax1 cur d st e).pq.length ≤ st.pq.length + 1 := by
  by_cases h : Improves st (d + e.2) e.1
  · rw [relax1_of_improves h]
    simp
  · rw [relax1_of_not_improves h]
    omega

theorem relaxAll_visited (cur : Nat) (d : ℚ) (edges : List (Nat × ℚ))
    (st : DState) : (relaxAll cur d edges st).visited = st.visited := by
  induction edges generalizing st with
  | nil => rfl
  | cons e es ih =>
    show (relaxAll cur d es (relax1 cur d st e)).visited = st.visited
    rw [ih, relax1_visited]

theorem relaxAll_pq_length (cur : Nat) (d : ℚ) (edges : List (Nat × ℚ))
    (st : DState) :
    (relaxAll cur d edges st).pq.length ≤ st.pq.length + edges.length := by
  induction edges generalizing st with
  | nil => simp [relaxAll]
  | cons e es ih =>
    have h1 := relax1_pq_length cur d st e
    have h2 := ih (relax1 cur d st e)
    show (relaxAll cur d es (relax1 cur d st e)).pq.length ≤ _
    simp only [List.length_cons]
    omega

theorem getNeighbors_eq_nil_of_not_key {g : Graph Nat} {n : Nat}
    (h : n ∉ graphKeys g) : getNeighbors g n = [] := by
  unfold getNeighbors findEntry
  cases hf : g.adjacencyList.find? (fun p => p.1 = n) with
  | none => rfl
  | some p =>
    exfalso
    apply h
    have hmem := List.mem_of_find?_eq_some hf
    have hp : p.1 = n := by
      have := List.find?_some hf
      simpa using this
    unfold graphKeys
    exact hp ▸ List.mem_map_of_mem (·.1) hmem

theorem sum_map_filter_le (f : Nat → Nat) (p : Nat → Bool) :
    ∀ l : List Nat, ((l.filter p).map f).sum ≤ (l.map f).sum := by
  intro l
  induction l with
  | nil => simp
  | cons a l ih =>
    simp only [List.filter_cons, List.map_cons, List.sum_cons]
    split
    · simp only [List.map_cons, List.sum_cons]
      omega
    · omega

theorem sum_map_filter_ne (f : Nat → Nat) (c : Nat) :
    ∀ l : List Nat, c ∈ l →
      ((l.filter (fun n => n ≠ c)).map f).sum + f c ≤ (l.map f).sum := by
  intro l
  induction l with
  | nil => intro h; simp at h
  | cons a l ih =>
    intro h
    by_cases hac : a = c
    · subst hac
      have hfilter : (a :: l).filter (fun n => n ≠ a) =
          l.filter (fun n => n ≠ a) := by
        simp
      rw [hfilter]
      have hle := sum_map_filter_le f (fun n => n ≠ a) l
      simp only [List.map_cons, List.sum_cons]
      omega
    · rcases List.mem_cons.mp h with rfl | hcl
      · exact absurd rfl hac
      · have := ih hcl
        have hfilter : (a :: l).filter (fun n => n ≠ c) =
            a :: l.filter (fun n => n ≠ c) := by
          simp [List.filter_cons, hac]
        rw [hfilter]
        simp only [List.map_cons, List.sum_cons]
        omega

theorem sum_map_filter_mono (f : Nat → Nat) (p q : Nat → Bool)
    (hpq : ∀ n, q n = true → p n = true) :
    ∀ l : List Nat, ((l.filter q).map f).sum ≤ ((l.filter p).map f).sum := by
  intro l
  induction l with
  | nil => simp
  | cons a l ih =>
    simp only [List.filter_cons]
    by_cases hq : q a = true
    · rw [if_pos hq, if_pos (hpq a hq)]
      simp only [List.map_cons, List.sum_cons]
      omega
    · rw [if_neg hq]
      split
      · simp only [List.map_cons, List.sum_cons]
        omega
      · exact ih

theorem not_mem_append_singleton {n c : Nat} {v : List Nat} :
    (n ∉ v ++ [c]) ↔ (n ∉ v ∧ n ≠ c) := by
  simp [List.mem_append, not_or]

/-- Termination of the Dijkstra loop: with fuel exceeding the measure, the
loop always returns a final state (the fuel-exhaustion branch is not
taken). -/
theorem dLoop_some (g : Graph Nat) (endN : Nat) :
    ∀ fuel st, dMeasure g st < fuel → ∃ stF, dLoop g endN fuel st = some stF := by
  intro fuel
  induction fuel with
  | zero => intro st h; omega
  | succ fuel ih =>
    intro st h
    unfold dLoop
    cases hpop : popMin st.pq with
    | none => exact ⟨st, rfl⟩
    | some pr =>
      obtain ⟨⟨d, cur⟩, rest⟩ := pr
      obtain ⟨hmem, hmin, hrest, hlen⟩ := popMin_spec hpop
      dsimp only
      by_cases hvis : cur ∈ st.visited
      · rw [if_pos hvis]
        apply ih
        unfold dMeasure at h ⊢
        simp only
        omega
      · rw [if_neg hvis]
        by_cases hend : cur = endN
        · rw [if_pos hend]
          exact ⟨_, rfl⟩
        · rw [if_neg hend]
          apply ih
          set st1 : DState :=
            { st with pq := rest, visited := st.visited ++ [cur] } with hst1
          have hv2 : (relaxAll cur d (getNeighbors g cur) st1).visited =
              st.visited ++ [cur] := by
            rw [relaxAll_visited]
          have hq2 : (relaxAll cur d (getNeighbors g cur) st1).pq.length ≤
              rest.length + (getNeighbors g cur).length := by
            have := relaxAll_pq_length cur d (getNeighbors g cur) st1
            simpa using this
          unfold dMeasure
          rw [hv2]
          by_cases hkey : cur ∈ graphKeys g
          · have hfilter : (graphKeys g).filter (fun n => n ∉ st.visited ++ [cur]) =
                ((graphKeys g).filter (fun n => n ∉ st.visited)).filter
                  (fun n => n ≠ cur) := by
              rw [List.filter_filter]
              apply List.filter_congr
              intro n _
              rcases Decidable.em (n ∈ st.visited) with hn | hn <;>
                rcases Decidable.em (n = cur) with hc | hc <;>
                  simp [hn, hc, not_mem_append_singleton]
            have hcurmem : cur ∈ (graphKeys g).filter (fun n => n ∉ st.visited) := by
              simp [List.mem_filter, hkey, hvis]
            have hsum : ((((graphKeys g).filter (fun n => n ∉ st.visited)).filter
                  (fun n => n ≠ cur)).map
                    (fun n => 1 + (getNeighbors g n).length)).sum +
                (1 + (getNeighbors g cur).length) ≤
                (((graphKeys g).filter (fun n => n ∉ st.visited)).map
                  (fun n => 1 + (getNeighbors g n).length)).sum :=
              sum_map_filter_ne (fun n => 1 + (getNeighbors g n).length)
                cur ((graphKeys g).filter (fun n => n ∉ st.visited)) hcurmem
            unfold dMeasure at h
            rw [hfilter]
            omega
          · have hnil : getNeighbors g cur = [] :=
              getNeighbors_eq_nil_of_not_key hkey
            have hsum := sum_map_filter_mono
              (fun n => 1 + (getNeighbors g n).length)
              (fun n => decide (n ∉ st.visited))
              (fun n => decide (n ∉ st.visited ++ [cur]))
              (by
                intro n hn
                simp only [decide_eq_true_eq] at hn ⊢
                exact (not_mem_append_singleton.mp hn).1)
              (graphKeys g)
            unfold dMeasure at h
            simp only [hnil, List.length_nil] at hq2 ⊢
            omega

/-! ### Navigator (`src/src/Navigator.cpp`) -/

/-- Initial Dijkstra state (`src/src/Navigator.cpp` lines 105-113): every
location's tentative distance is `INF` (modelled by the default `none`), the
start's is `0`, nothing is visited and the queue holds `(0, start)`.  The
source writes an explicit `INF` entry for every element of `allLocations_`;
reading a location that was never written default-inserts `0.0` in C++, but
within the modelled workflow (a graph built by `initializeGraph`) every node
the algorithm touches is an element of `allLocations_`, so the `none`
default is equivalent. -/
def dInit (start : Nat) : DState :=
  { dist := fun x => if x = start then some 0 else none
    prev := fun _ => none
    visited := []
    pq := [(0, start)] }

/-- Fuel passed to the main loop: one more than the initial measure (proved
sufficient by `dLoop_some`). -/
def dijkstraFuel (g : Graph Nat) (start : Nat) : Nat :=
  dMeasure g (dInit start) + 1

/-- Embeds the backtracking loop of `Navigator::reconstructPath`
(`src/src/Navigator.cpp` lines 170-185) as fuel-indexed recursion: walk the
`previous` links from `cur` back to `start`, producing the node list in
forward order (the source collects the reversed list and reverses it); a
missing predecessor throws `PathNotFoundException` ("Path reconstruction
failed"). -/
def reconstructGo (prev : Nat → Option Nat) (startN : Nat) :
    Nat → Nat → Option (Except NavError (List Nat))
  | 0, _ => none
  | fuel + 1, cur =>
    if cur = startN then some (.ok [startN])
    else
      match prev cur with
      | none => some (.error .pathNotFound)
      | some m =>
        (reconstructGo prev startN fuel m).map (fun r => r.map (fun l => l ++ [cur]))

/-- Embeds `Navigator::reconstructPath` (`src/src/Navigator.cpp` lines
165-200): backtrack the predecessor links, build a `Path` by adding each
location in turn, then override the accumulated geometric total with the
Dijkstra distance of the destination via `setTotalDistance`. -/
def reconstructPath (gd : Nat → Nat → ℚ) (start endN : Nat)
    (prev : Nat → Option Nat) (distEnd : ℚ) (fuel : Nat) :
    Except NavError Path :=
  match reconstructGo prev start fuel endN with
  | none => .error .nonTermination
  | some (.error err) => .error err
  | some (.ok l) => setTotalDistance (buildPath gd l) distEnd

/-- Embeds `Navigator::dijkstraShortestPath` (`src/src/Navigator.cpp` lines
93-162): run the main loop; if afterwards the destination's tentative
distance is still `INF`, throw `PathNotFoundException`; otherwise reconstruct
the path. -/
def dijkstraShortestPath (gd : Nat → Nat → ℚ) (g : Graph Nat)
    (start endN : Nat) : Except NavError Path :=
  match dLoop g endN (dijkstraFuel g start) (dInit start) with
  | none => .error .nonTermination
  | some stF =>
    match stF.dist endN with
    | none => .error .pathNotFound
    | some dE =>
      reconstructPath gd start endN stF.prev dE (stF.visited.length + 1)

/-- State of a `Navigator` object (`src/src/Navigator.h` lines 68-73): the
graph, the flat location list, the active navigation mode and the cached last
path. -/
structure NavState where
  graph : Graph Nat
  allLocations : List Nat
  currentMode : NavigationMode
  lastPath : Path

/-- Embeds the `Navigator` constructor: empty graph and location list, a
fresh `WalkingMode` as the default mode, and a default-constructed (empty)
last path. -/
def navigatorCtor : NavState := ⟨emptyGraph Nat, [], walkingMode, emptyPath⟩

/-- The edge-adding loop of `initializeGraph` (`src/src/Navigator.cpp` lines
40-47): for each index pair read the matching distance and add an undirected
edge between `locations[from]` and `locations[to]`.  The source performs no
bounds checking; an out-of-bounds `std::vector` access is undefined
behaviour, modelled by `none`. -/
def addConnections (locations : List Nat) :
    Graph Nat → List (Nat × Nat) → List ℚ → Option (Graph Nat)
  | g, [], _ => some g
  | _, _ :: _, [] => none
  | g, c :: cs, dd :: ds =>
    match locations.get? c.1, locations.get? c.2 with
    | some lf, some lt =>
      addConnections locations (addUndirectedEdge g lf lt dd) cs ds
    | _, _ => none

/-- Embeds `Navigator::initializeGraph` (`src/src/Navigator.cpp` lines
28-48): store the location list, add every location as a node, then add an
undirected edge per index pair; the existing graph is not cleared.  The
`undefinedBehavior` outcome marks an out-of-bounds index (no exception is
thrown by the source there). -/
def initializeGraph (st : NavState) (locations : List Nat)
    (connections : List (Nat × Nat)) (distances : List ℚ) :
    Except NavError NavState :=
  match addConnections locations (locations.foldl addNode st.graph)
      connections distances with
  | none => .error .undefinedBehavior
  | some g2 => .ok { st with graph := g2, allLocations := locations }

/-- The fallible part of `Navigator::findPath(Location*, Location*)`
(`src/src/Navigator.cpp` lines 64-78): validate that both pointers are
non-null (`none` models `nullptr`) and that both nodes are in the graph,
then run Dijkstra.  The assignment to the `lastPath_` cache is performed by
`findPath` below, after this computation returns normally — exactly as the
source's `lastPath_ = dijkstraShortestPath(start, end);` first fully
evaluates the right-hand side. -/
def findPathPure (gd : Nat → Nat → ℚ) (st : NavState) (s e : Option Nat) :
    Except NavError Path :=
  match s, e with
  | some s, some e =>
    if hasNode st.graph s && hasNode st.graph e then
      dijkstraShortestPath gd st.graph s e
    else .error .invalidArgument
  | _, _ => .error .invalidArgument

/-- Embeds `Navigator::findPath(Location*, Location*)` including its effect
on the `lastPath_` cache: on success the cache is replaced by the new path;
when an exception propagates, the assignment never executes and the state is
unchanged. -/
def findPath (gd : Nat → Nat → ℚ) (st : NavState) (s e : Option Nat) :
    Except NavError Path × NavState :=
  match findPathPure gd st s e with
  | .error err => (.error err, st)
  | .ok p => (.ok p, { st with lastPath := p })

/-- Embeds `Navigator::getEstimatedTime` (`src/src/Navigator.cpp` lines
216-226): `0` when no path has been computed (empty last path), otherwise the
active mode's `calculateTime` applied to the last path's total distance.  The
`currentMode_ == nullptr` check of the source is unreachable (the constructor
installs a `WalkingMode` and `setNavigationMode` rejects null), so the mode
is modelled as always present. -/
def getEstimatedTime (st : NavState) : ℚ :=
  if st.lastPath.nodes = [] then 0
  else calculateTime st.currentMode st.lastPath.total

/-- Compute the per-leg paths of a multi-waypoint route, failing on the first
leg that fails. -/
def legPaths (gd : Nat → Nat → ℚ) (st : NavState) :
    List (Nat × Nat) → Except NavError (List Path)
  | [] => .ok []
  | (a, b) :: rest =>
    match findPathPure gd st (some a) (some b) with
    | .error err => .error err
    | .ok p =>
      match legPaths gd st rest with
      | .error err => .error err
      | .ok ps => .ok (p :: ps)

/-- Stitch the leg paths together with `operator+` in order. -/
def stitchLegs (gd : Nat → Nat → ℚ) (gid : Nat → Int) : List Path → Path
  | [] => emptyPath
  | p :: ps => ps.foldl (pathCombine gd gid) p

/-- Modelled from the spec: `Navigator::findPath(Location*, Location*, const
std::vector<Location*>&)` is declared at `src/src/Navigator.h` lines 148-156
but its definition is not among the repository's source files; this
definition follows §4.4 of the specification: fail with `InvalidArgument`
(the header's `ViaSelectionException`) when any via equals the start or the
end; with no vias behave as the two-argument form; otherwise decompose the
route into consecutive legs, compute each leg by single-pair Dijkstra,
stitch the legs with `combine` in order, and re-set the cached total
distance to the sum of the per-leg optimum distances, caching the result as
the last path. -/
def findPathVias (gd : Nat → Nat → ℚ) (gid : Nat → Int) (st : NavState)
    (s e : Nat) (vias : List Nat) : Except NavError Path × NavState :=
  if vias.contains s || vias.contains e then (.error .invalidArgument, st)
  else if vias.isEmpty then findPath gd st (some s) (some e)
  else
    let waypoints := s :: vias ++ [e]
    match legPaths gd st (waypoints.zip waypoints.tail) with
    | .error err => (.error err, st)
    | .ok ps =>
      match setTotalDistance (stitchLegs gd gid ps) (ps.map Path.total).sum with
      | .error err => (.error err, st)
      | .ok final => (.ok final, { st with lastPath := final })

/-! ### Graph lemmas -/

theorem findEntry_addNode_self {T : Type} [DecidableEq T] (g : Graph T) (n : T) :
    findEntry (addNode g n) n = some ((findEntry g n).getD []) := by
  cases h : findEntry g n with
  | some es =>
    unfold addNode
    rw [h]
    simp [h]
  | none =>
    unfold addNode
    rw [h]
    unfold findEntry at h ⊢
    simp only [Option.map_eq_none'] at h
    simp [List.find?_append, h]

theorem findEntry_addNode_other {T : Type} [DecidableEq T] (g : Graph T)
    {n m : T} (h : m ≠ n) : findEntry (addNode g n) m = findEntry g m := by
  cases hn : findEntry g n with
  | some es =>
    unfold addNode
    rw [hn]
  | none =>
    unfold addNode
    rw [hn]
    unfold findEntry
    simp only [List.find?_append]
    have : List.find? (fun p => decide (p.1 = m)) [(n, ([] : List (T × ℚ)))] = none := by
      simp [List.find?_cons, Ne.symm h]
    rw [this]
    simp

theorem findEntry_addNode {T : Type} [DecidableEq T] (g : Graph T) (n m : T) :
    findEntry (addNode g n) m =
      if m = n then some ((findEntry g n).getD []) else findEntry g m := by
  by_cases h : m = n
  · subst h
    rw [if_pos rfl, findEntry_addNode_self]
  · rw [if_neg h, findEntry_addNode_other g h]

theorem findEntry_setEdges {T : Type} [DecidableEq T] (g : Graph T)
    (n m : T) (es : List (T × ℚ)) :
    findEntry (setEdges g n es) m =
      (findEntry g m).map (fun old => if m = n then es else old) := by
  unfold findEntry setEdges
  simp only [List.find?_map]
  have hq : ((fun p : T × List (T × ℚ) => decide (p.1 = m)) ∘
      (fun p => if p.1 = n then (p.1, es) else p)) =
        (fun p : T × List (T × ℚ) => decide (p.1 = m)) := by
    funext p
    by_cases hp : p.1 = n <;> simp [hp]
  rw [hq]
  cases hf : g.adjacencyList.find? (fun p => decide (p.1 = m)) with
  | none => simp
  | some p =>
    have hp : p.1 = m := by simpa using List.find?_some hf
    by_cases hmn : m = n
    · simp [hp, hmn]
    · have : ¬ p.1 = n := by rw [hp]; exact hmn
      simp [this, hmn]

theorem findEntry_addEdge_self {T : Type} [DecidableEq T] (g : Graph T)
    (f t : T) (w : ℚ) :
    findEntry (addEdge g f t w) f = some (getNeighbors g f ++ [(t, w)]) := by
  have h1 : findEntry (addNode (addNode g f) t) f = some (getNeighbors g f) := by
    by_cases ht : f = t
    · subst ht
      rw [findEntry_addNode_self, findEntry_addNode_self]
      unfold getNeighbors
      cases findEntry g f <;> simp
    · rw [findEntry_addNode_other _ ht, findEntry_addNode_self]
      rfl
  unfold addEdge
  rw [findEntry_setEdges, h1]
  simp only [if_pos rfl, Option.map_some']
  rfl

theorem getNeighbors_addEdge_self {T : Type} [DecidableEq T] (g : Graph T)
    (f t : T) (w : ℚ) :
    getNeighbors (addEdge g f t w) f = getNeighbors g f ++ [(t, w)] := by
  unfold getNeighbors
  rw [findEntry_addEdge_self]
  rfl

theorem getNeighbors_addEdge_other {T : Type} [DecidableEq T] (g : Graph T)
    {f m : T} (t : T) (w : ℚ) (h : m ≠ f) :
    getNeighbors (addEdge g f t w) m = getNeighbors g m := by
  unfold getNeighbors addEdge
  rw [findEntry_setEdges]
  simp only [findEntry_addNode]
  by_cases hmt : m = t
  · subst hmt
    simp [h]
  · simp [hmt, h]

theorem hasEdge_eq_any {T : Type} [DecidableEq T] (g : Graph T) (f t : T) :
    hasEdge g f t = (getNeighbors g f).any (fun e => e.1 = t) := by
  unfold hasEdge getNeighbors
  cases findEntry g f <;> simp

theorem getEdgeWeight_eq_find {T : Type} [DecidableEq T] (g : Graph T)
    (f t : T) :
    getEdgeWeight g f t =
      match (getNeighbors g f).find? (fun e => e.1 = t) with
      | none => .error .notFound
      | some e => .ok e.2 := by
  unfold getEdgeWeight getNeighbors
  cases findEntry g f <;> simp

/-! ### Path lemmas -/

theorem addLocation_nodes (gd : Nat → Nat → ℚ) (p : Path) (x : Nat) :
    (addLocation gd p x).nodes = p.nodes ++ [x] := by
  unfold addLocation
  cases h : p.nodes.getLast? with
  | none =>
    have : p.nodes = [] := List.getLast?_eq_none_iff.mp h
    simp [this]
  | some a => simp

theorem foldl_addLocation_nodes (gd : Nat → Nat → ℚ) :
    ∀ (l : List Nat) (p : Path),
      (l.foldl (addLocation gd) p).nodes = p.nodes ++ l := by
  intro l
  induction l with
  | nil => intro p; simp
  | cons x xs ih =>
    intro p
    show ((xs.foldl (addLocation gd) (addLocation gd p x)).nodes) = _
    rw [ih, addLocation_nodes]
    simp

theorem foldl_addLocation_total (gd : Nat → Nat → ℚ) :
    ∀ (l : List Nat) (p : Path) (a : Nat), p.nodes.getLast? = some a →
      (l.foldl (addLocation gd) p).total =
        p.total + pairwiseDistSum gd (a :: l) := by
  intro l
  induction l with
  | nil =>
    intro p a _
    simp [pairwiseDistSum]
  | cons x xs ih =>
    intro p a ha
    show ((xs.foldl (addLocation gd) (addLocation gd p x)).total) = _
    have hnodes : (addLocation gd p x).nodes = p.nodes ++ [x] :=
      addLocation_nodes gd p x
    have hlast : (addLocation gd p x).nodes.getLast? = some x := by
      rw [hnodes]
      exact List.getLast?_concat _
    have htot : (addLocation gd p x).total = p.total + gd a x := by
      unfold addLocation
      rw [ha]
    rw [ih _ x hlast, htot]
    show _ = p.total + (gd a x + pairwiseDistSum gd (x :: xs))
    ring

theorem buildPath_nodes (gd : Nat → Nat → ℚ) (l : List Nat) :
    (buildPath gd l).nodes = l := by
  unfold buildPath
  rw [foldl_addLocation_nodes]
  rfl

theorem buildPath_total (gd : Nat → Nat → ℚ) (l : List Nat) :
    (buildPath gd l).total = pairwiseDistSum gd l := by
  cases l with
  | nil => rfl
  | cons x xs =>
    unfold buildPath
    show ((xs.foldl (addLocation gd) (addLocation gd emptyPath x)).total) = _
    have h1 : addLocation gd emptyPath x = ⟨[x], 0⟩ := rfl
    rw [h1]
    have := foldl_addLocation_total gd xs ⟨[x], 0⟩ x (by simp)
    rw [this]
    simp

theorem pairwiseDistSum_append (gd : Nat → Nat → ℚ) :
    ∀ (l1 : List Nat) (a : Nat) (l2 : List Nat), l1.getLast? = some a →
      pairwiseDistSum gd (l1 ++ l2) =
        pairwiseDistSum gd l1 + pairwiseDistSum gd (a :: l2) := by
  intro l1
  induction l1 with
  | nil => intro a l2 h; simp at h
  | cons x xs ih =>
    intro a l2 h
    cases xs with
    | nil =>
      simp at h
      subst h
      simp [pairwiseDistSum]
    | cons y ys =>
      have hlast : (y :: ys).getLast? = some a := by
        rw [← h]
        simp [List.getLast?_cons_cons]
      have := ih a l2 hlast
      show pairwiseDistSum gd (x :: (y :: ys ++ l2)) = _
      rw [show pairwiseDistSum gd (x :: (y :: ys ++ l2)) =
        gd x y + pairwiseDistSum gd (y :: ys ++ l2) from rfl]
      rw [show pairwiseDistSum gd (x :: y :: ys) =
        gd x y + pairwiseDistSum gd (y :: ys) from rfl]
      rw [show ((y :: ys) ++ l2) = y :: (ys ++ l2) from rfl] at this ⊢
      rw [this]
      ring

theorem pathCombine_eq (gd : Nat → Nat → ℚ) (gid : Nat → Int) (p q : Path) :
    pathCombine gd gid p q =
      (q.nodes.drop (joinStartIndex gid p.nodes.getLast? q.nodes.head?)).foldl
        (addLocation gd) (buildPath gd p.nodes) := by
  show (q.nodes.drop
      (joinStartIndex gid (buildPath gd p.nodes).nodes.getLast? q.nodes.head?)).foldl
    (addLocation gd) (buildPath gd p.nodes) = _
  rw [buildPath_nodes]

/-! ### Claim theorems: Path combination, Location, Graph, time estimates -/

/-- C7: `p + q` concatenates the node sequences, dropping `q`'s first node
exactly when both paths are non-empty and the `getId` of `p`'s last node
equals the `getId` of `q`'s first node; the result's cached total distance is
re-accumulated through `addLocation` (the sum of pairwise `distanceTo`
distances over the result's node sequence) and is in general not the sum of
the two operands' cached totals. -/
theorem pathCombine_spec :
    (∀ (gd : Nat → Nat → ℚ) (gid : Nat → Int) (p q : Path),
      ((∃ a b, p.nodes.getLast? = some a ∧ q.nodes.head? = some b ∧
          gid a = gid b) →
        (pathCombine gd gid p q).nodes = p.nodes ++ q.nodes.tail) ∧
      ((¬ ∃ a b, p.nodes.getLast? = some a ∧ q.nodes.head? = some b ∧
          gid a = gid b) →
        (pathCombine gd gid p q).nodes = p.nodes ++ q.nodes) ∧
      (pathCombine gd gid p q).total =
        pairwiseDistSum gd (pathCombine gd gid p q).nodes) ∧
    (∃ (gd : Nat → Nat → ℚ) (gid : Nat → Int) (p q : Path),
      (pathCombine gd gid p q).total ≠ p.total + q.total) := by
  constructor
  · intro gd gid p q
    have heq := pathCombine_eq gd gid p q
    refine ⟨?_, ?_, ?_⟩
    · rintro ⟨a, b, ha, hb, hab⟩
      rw [heq, foldl_addLocation_nodes, buildPath_nodes]
      have hj : joinStartIndex gid p.nodes.getLast? q.nodes.head? = 1 := by
        rw [ha, hb]
        simp [joinStartIndex, hab]
      rw [hj, List.drop_one]
    · intro hne
      rw [heq, foldl_addLocation_nodes, buildPath_nodes]
      have hj : joinStartIndex gid p.nodes.getLast? q.nodes.head? = 0 := by
        unfold joinStartIndex
        cases ha : p.nodes.getLast? with
        | none => cases q.nodes.head? <;> rfl
        | some a =>
          cases hb : q.nodes.head? with
          | none => rfl
          | some b =>
            have : ¬ gid a = gid b := fun hab => hne ⟨a, b, ha, hb, hab⟩
            simp [this]
      rw [hj, List.drop_zero]
    · rw [heq]
      cases hp : p.nodes.getLast? with
      | none =>
        have hpn : p.nodes = [] := List.getLast?_eq_none_iff.mp hp
        have hj : joinStartIndex gid (none : Option Nat) q.nodes.head? = 0 := by
          unfold joinStartIndex
          cases q.nodes.head? <;> rfl
        rw [hj, List.drop_zero, hpn]
        show (buildPath gd q.nodes).total =
          pairwiseDistSum gd (buildPath gd q.nodes).nodes
        rw [buildPath_nodes, buildPath_total]
      | some a =>
        have hlastb : (buildPath gd p.nodes).nodes.getLast? = some a := by
          rw [buildPath_nodes]
          exact hp
        rw [foldl_addLocation_total gd _ _ a hlastb,
          foldl_addLocation_nodes, buildPath_nodes, buildPath_total]
        rw [pairwiseDistSum_append gd p.nodes a _ hp]
  · refine ⟨fun _ _ => 1, fun n => (n : Int), ⟨[0, 1], 5⟩, ⟨[1, 2], 5⟩, ?_⟩
    norm_num [pathCombine, joinStartIndex, addLocation, emptyPath]

/-- Witness for C7: on the concrete instance the join node is dropped, the
distance is the pairwise re-accumulation, and it differs from the sum of the
cached totals. -/
theorem pathCombine_spec_witness :
    (pathCombine (fun _ _ => 1) (fun n => (n : Int)) ⟨[0, 1], 5⟩
        ⟨[1, 2], 5⟩).nodes = [0, 1, 2] ∧
    (pathCombine (fun _ _ => 1) (fun n => (n : Int)) ⟨[0, 1], 5⟩
        ⟨[1, 2], 5⟩).total =
      pairwiseDistSum (fun _ _ => 1)
        (pathCombine (fun _ _ => 1) (fun n => (n : Int)) ⟨[0, 1], 5⟩
          ⟨[1, 2], 5⟩).nodes ∧
    (pathCombine (fun _ _ => 1) (fun n => (n : Int)) ⟨[0, 1], 5⟩
        ⟨[1, 2], 5⟩).total ≠ (5 : ℚ) + 5 := by
  have h := (pathCombine_spec.1 (fun _ _ => 1) (fun n => (n : Int))
    ⟨[0, 1], 5⟩ ⟨[1, 2], 5⟩)
  have hnodes : (pathCombine (fun _ _ => 1) (fun n => (n : Int)) ⟨[0, 1], 5⟩
      ⟨[1, 2], 5⟩).nodes = [0, 1, 2] := by
    have := h.1 ⟨1, 1, by decide, by decide, rfl⟩
    rw [this]
    rfl
  refine ⟨hnodes, h.2.2, ?_⟩
  have htot := h.2.2
  rw [hnodes] at htot
  rw [htot]
  norm_num [pairwiseDistSum]

/-- C5 counterexample: the parameterized `Location` constructor accepts an
empty name (it never calls `setName`), contradicting the claim that
construction fails with `InvalidArgument` when the name is empty. -/
theorem locationCtor_empty_name_accepted :
    locationCtor "" 0 0 "" 1 = .ok ⟨"", 0, 0, "", 1⟩ := by
  rfl

/-- C5 (amended): constructing a `Location` fails with `InvalidArgument` if
and only if the latitude is outside `[-90, 90]` or the longitude is outside
`[-180, 180]`; the name is not validated by the constructor. -/
theorem locationCtor_spec :
    ∀ (name : String) (lat lon : ℚ) (desc : String) (id : Int),
      (locationCtor name lat lon desc id = .error .invalidArgument ↔
        (lat < -90 ∨ 90 < lat ∨ lon < -180 ∨ 180 < lon)) ∧
      (¬ (lat < -90 ∨ 90 < lat ∨ lon < -180 ∨ 180 < lon) →
        locationCtor name lat lon desc id = .ok ⟨name, lat, lon, desc, id⟩) := by
  intro name lat lon desc id
  unfold locationCtor
  constructor
  · split_ifs with h1 h2
    · simp only [true_iff]
      tauto
    · simp only [true_iff]
      tauto
    · simp only [reduceCtorEq, false_iff]
      tauto
  · intro h
    push_neg at h
    split_ifs with h1 h2
    · rcases h1 with h1 | h1 <;> linarith [h.1, h.2.1]
    · rcases h2 with h2 | h2 <;> linarith [h.2.2.1, h.2.2.2]
    · rfl

/-- Witness for C5 (amended): latitude 91 and longitude -181 are rejected
with `InvalidArgument`, and an empty name with valid coordinates is
accepted. -/
theorem locationCtor_spec_witness :
    locationCtor "x" 91 0 "d" 1 = .error .invalidArgument ∧
    locationCtor "y" 0 (-181) "d" 2 = .error .invalidArgument ∧
    locationCtor "" 3 4 "d" 5 = .ok ⟨"", 3, 4, "d", 5⟩ := by
  refine ⟨?_, ?_, ?_⟩
  · exact ((locationCtor_spec "x" 91 0 "d" 1).1).mpr (by norm_num)
  · exact ((locationCtor_spec "y" 0 (-181) "d" 2).1).mpr (by norm_num)
  · exact (locationCtor_spec "" 3 4 "d" 5).2 (by norm_num)

/-- C6 counterexample: when the graph already holds an `x → y` edge of a
different weight, `getEdgeWeight` after `addUndirectedEdge(x, y, w)` returns
the first (older) edge's weight, not `w`. -/
theorem addUndirectedEdge_stale_weight :
    getEdgeWeight (addUndirectedEdge (addEdge (emptyGraph Nat) 0 1 1) 0 1 2)
        0 1 = .ok 1 ∧ (1 : ℚ) ≠ 2 := by
  constructor
  · rfl
  · norm_num

theorem any_false_find?_none {T : Type} [DecidableEq T] {l : List (T × ℚ)}
    {t : T} (h : l.any (fun e => e.1 = t) = false) :
    l.find? (fun e => e.1 = t) = none := by
  rw [List.find?_eq_none]
  intro x hx hpx
  have htrue : l.any (fun e => e.1 = t) = true :=
    List.any_eq_true.mpr ⟨x, hx, hpx⟩
  rw [h] at htrue
  exact Bool.false_ne_true htrue

/-- C6 (amended): after `addUndirectedEdge(x, y, w)` both `hasEdge(x, y)` and
`hasEdge(y, x)` hold; `getEdgeWeight` returns `w` in both directions provided
the prior graph held no edge in that direction (since `getEdgeWeight` returns
the first matching edge's weight and `addEdge` appends at the back, an older
edge of a different weight takes precedence otherwise). -/
theorem addUndirectedEdge_spec :
    ∀ (T : Type) (_instT : DecidableEq T) (g : Graph T) (x y : T) (w : ℚ),
      hasEdge (addUndirectedEdge g x y w) x y = true ∧
      hasEdge (addUndirectedEdge g x y w) y x = true ∧
      (hasEdge g x y = false →
        getEdgeWeight (addUndirectedEdge g x y w) x y = .ok w) ∧
      (hasEdge g y x = false →
        getEdgeWeight (addUndirectedEdge g x y w) y x = .ok w) := by
  intro T _instT g x y w
  by_cases hxy : x = y
  · subst hxy
    have hn : getNeighbors (addUndirectedEdge g x x w) x =
        (getNeighbors g x ++ [(x, w)]) ++ [(x, w)] := by
      unfold addUndirectedEdge
      rw [getNeighbors_addEdge_self, getNeighbors_addEdge_self]
    have hedge : hasEdge (addUndirectedEdge g x x w) x x = true := by
      rw [hasEdge_eq_any, hn]
      simp [List.any_append]
    have hweight : hasEdge g x x = false →
        getEdgeWeight (addUndirectedEdge g x x w) x x = .ok w := by
      intro hfalse
      rw [hasEdge_eq_any] at hfalse
      rw [getEdgeWeight_eq_find, hn]
      rw [List.find?_append, List.find?_append,
        any_false_find?_none hfalse]
      simp
    exact ⟨hedge, hedge, hweight, hweight⟩
  · have hnx : getNeighbors (addUndirectedEdge g x y w) x =
        getNeighbors g x ++ [(y, w)] := by
      unfold addUndirectedEdge
      rw [getNeighbors_addEdge_other _ _ _ hxy, getNeighbors_addEdge_self]
    have hny : getNeighbors (addUndirectedEdge g x y w) y =
        getNeighbors g y ++ [(x, w)] := by
      unfold addUndirectedEdge
      rw [getNeighbors_addEdge_self,
        getNeighbors_addEdge_other _ _ _ (Ne.symm hxy)]
    refine ⟨?_, ?_, ?_, ?_⟩
    · rw [hasEdge_eq_any, hnx]
      simp [List.any_append]
    · rw [hasEdge_eq_any, hny]
      simp [List.any_append]
    · intro hfalse
      rw [hasEdge_eq_any] at hfalse
      rw [getEdgeWeight_eq_find, hnx, List.find?_append,
        any_false_find?_none hfalse]
      simp
    · intro hfalse
      rw [hasEdge_eq_any] at hfalse
      rw [getEdgeWeight_eq_find, hny, List.find?_append,
        any_false_find?_none hfalse]
      simp

/-- Witness for C6 (amended): on a fresh graph with no prior edges, both
`hasEdge` directions hold and `getEdgeWeight` returns the inserted weight in
both directions. -/
theorem addUndirectedEdge_spec_witness :
    hasEdge (addUndirectedEdge (emptyGraph Nat) 0 1 5) 0 1 = true ∧
    hasEdge (addUndirectedEdge (emptyGraph Nat) 0 1 5) 1 0 = true ∧
    getEdgeWeight (addUndirectedEdge (emptyGraph Nat) 0 1 5) 0 1 = .ok 5 ∧
    getEdgeWeight (addUndirectedEdge (emptyGraph Nat) 0 1 5) 1 0 = .ok 5 := by
  obtain ⟨h1, h2, h3, h4⟩ :=
    addUndirectedEdge_spec Nat inferInstance (emptyGraph Nat) 0 1 5
  exact ⟨h1, h2, h3 (by decide), h4 (by decide)⟩

/-- C4: a failed `findPath` call leaves the navigator state (in particular
the `lastPath_` cache) unchanged; only a successful call replaces the cache
with the returned path. -/
theorem findPath_error_preserves_state :
    ∀ (gd : Nat → Nat → ℚ) (st : NavState) (s e : Option Nat),
      (∀ err, (findPath gd st s e).1 = .error err →
        (findPath gd st s e).2 = st) ∧
      (∀ p, (findPath gd st s e).1 = .ok p →
        (findPath gd st s e).2 = { st with lastPath := p }) := by
  intro gd st s e
  unfold findPath
  cases h : findPathPure gd st s e with
  | error err => exact ⟨fun _ _ => rfl, fun p hp => by simp at hp⟩
  | ok p => exact ⟨fun err herr => by simp at herr, fun p' hp' => by
      simp only [Except.ok.injEq] at hp'
      rw [hp']⟩

/-- Witness for C4: a call with a null start pointer fails with
`InvalidArgument` and leaves the fresh navigator state unchanged. -/
theorem findPath_error_preserves_state_witness :
    (findPath (fun _ _ => 0) navigatorCtor none none).1 =
      .error .invalidArgument ∧
    (findPath (fun _ _ => 0) navigatorCtor none none).2 = navigatorCtor := by
  constructor
  · rfl
  · exact (findPath_error_preserves_state (fun _ _ => 0) navigatorCtor
      none none).1 .invalidArgument rfl

/-- C8: `initializeGraph` performs no bounds check on the index pairs; with
one location and the index pair `(0, 1)` the source reads
`locations[1]` out of bounds, which is undefined behaviour — no
`InvalidArgument` is raised (the claim's guard does not exist in the
code). -/
theorem initializeGraph_oob_is_ub :
    initializeGraph navigatorCtor [7] [(0, 1)] [5] =
      .error .undefinedBehavior ∧
    NavError.undefinedBehavior ≠ NavError.invalidArgument := by
  exact ⟨rfl, by decide⟩

/-- C9: `getEstimatedTime` returns `0` for an empty last path and otherwise
applies the active mode's `calculateTime`, which computes
`d / (speed * 1000 / 60)` minutes; for 1000 m this gives 12 minutes walking
(5 km/h) and 4 minutes cycling (15 km/h). -/
theorem getEstimatedTime_spec :
    (∀ st : NavState, st.lastPath.nodes = [] → getEstimatedTime st = 0) ∧
    (∀ st : NavState, st.lastPath.nodes ≠ [] →
      getEstimatedTime st =
        st.lastPath.total / (st.currentMode.averageSpeed * 1000 / 60)) ∧
    calculateTime walkingMode 1000 = 12 ∧
    calculateTime cyclingMode 1000 = 4 := by
  refine ⟨?_, ?_, ?_, ?_⟩
  · intro st h
    unfold getEstimatedTime
    rw [if_pos h]
  · intro st h
    unfold getEstimatedTime calculateTime
    rw [if_neg h]
  · unfold calculateTime walkingMode
    norm_num
  · unfold calculateTime cyclingMode
    norm_num

/-- Witness for C9: a navigator with an empty last path reports 0; with a
1000 m last path it reports 12 minutes in walking mode and 4 minutes in
cycling mode. -/
theorem getEstimatedTime_spec_witness :
    getEstimatedTime ⟨emptyGraph Nat, [], walkingMode, ⟨[], 0⟩⟩ = 0 ∧
    getEstimatedTime ⟨emptyGraph Nat, [], walkingMode, ⟨[0, 1], 1000⟩⟩ = 12 ∧
    getEstimatedTime ⟨emptyGraph Nat, [], cyclingMode, ⟨[0, 1], 1000⟩⟩ = 4 := by
  refine ⟨getEstimatedTime_spec.1 _ rfl, ?_, ?_⟩
  · rw [getEstimatedTime_spec.2.1 ⟨emptyGraph Nat, [], walkingMode,
      ⟨[0, 1], 1000⟩⟩ (by simp)]
    norm_num [walkingMode]
  · rw [getEstimatedTime_spec.2.1 ⟨emptyGraph Nat, [], cyclingMode,
      ⟨[0, 1], 1000⟩⟩ (by simp)]
    norm_num [cyclingMode]

/-- C10: the Dijkstra search loop terminates: with any fuel exceeding the
measure (settle-plus-push budget of the unvisited nodes plus the queue
length) the loop returns a final state instead of exhausting its fuel, and
in particular the fuel `dijkstraFuel` used by `dijkstraShortestPath` always
suffices. -/
theorem dijkstra_loop_terminates :
    (∀ (g : Graph Nat) (endN fuel : Nat) (st : DState),
      dMeasure g st < fuel → ∃ stF, dLoop g endN fuel st = some stF) ∧
    (∀ (g : Graph Nat) (start endN : Nat),
      ∃ stF, dLoop g endN (dijkstraFuel g start) (dInit start) = some stF) := by
  constructor
  · intro g endN fuel st h
    exact dLoop_some g endN fuel st h
  · intro g start endN
    apply dLoop_some
    unfold dijkstraFuel
    omega

/-- Witness for C10: on the empty graph the initial measure is 1, and the
loop with fuel 2 returns a final state. -/
theorem dijkstra_loop_terminates_witness :
    dMeasure (emptyGraph Nat) (dInit 0) < 2 ∧
    ∃ stF, dLoop (emptyGraph Nat) 5 2 (dInit 0) = some stF := by
  refine ⟨by decide, ?_⟩
  exact dijkstra_loop_terminates.1 (emptyGraph Nat) 5 2 (dInit 0) (by decide)

/-! ### Dijkstra loop invariants

The soundness invariant `DSound` (every queue key and every finite tentative
distance is the cost of an actual walk from the start) needs no assumption on
the edge weights; it yields the `PathNotFound` behaviour on disconnected
inputs.  The full invariant `DCore`/`FrontierOn` additionally assumes
nonnegative weights and yields optimality of the computed distance and
correctness of the predecessor chain. -/

/-- Soundness invariant: queue keys and tentative distances are walk costs. -/
structure DSound (g : Graph Nat) (start : Nat) (st : DState) : Prop where
  pq_walk : ∀ d n, (d, n) ∈ st.pq → ∃ l, Walk g start l n d
  dist_walk : ∀ n dn, st.dist n = some dn → ∃ l, Walk g start l n dn

theorem dInit_sound (g : Graph Nat) (start : Nat) :
    DSound g start (dInit start) := by
  constructor
  · intro d n hmem
    simp only [dInit, List.mem_singleton, Prod.mk.injEq] at hmem
    obtain ⟨rfl, rfl⟩ := hmem
    exact ⟨[n], Walk.refl n⟩
  · intro n dn hdn
    simp only [dInit] at hdn
    by_cases h : n = start
    · subst h
      rw [if_pos rfl] at hdn
      cases hdn
      exact ⟨[n], Walk.refl n⟩
    · rw [if_neg h] at hdn
      cases hdn

theorem relax1_sound {g : Graph Nat} {start cur : Nat} {d : ℚ} {st : DState}
    {e : Nat × ℚ} (hs : DSound g start st)
    (hwalk : ∃ l, Walk g start l cur d) (he : e ∈ getNeighbors g cur) :
    DSound g start (relax1 cur d st e) := by
  by_cases himp : Improves st (d + e.2) e.1
  · rw [relax1_of_improves himp]
    obtain ⟨l, hl⟩ := hwalk
    have hnew : ∃ l', Walk g start l' e.1 (d + e.2) :=
      ⟨l ++ [e.1], Walk.tail hl (by rwa [Prod.mk.eta])⟩
    constructor
    · intro d' n hmem
      simp only [List.mem_append, List.mem_singleton, Prod.mk.injEq] at hmem
      rcases hmem with hmem | ⟨rfl, rfl⟩
      · exact hs.pq_walk d' n hmem
      · exact hnew
    · intro n dn hdn
      simp only at hdn
      by_cases hn : n = e.1
      · rw [if_pos hn] at hdn
        cases hdn
        subst hn
        exact hnew
      · rw [if_neg hn] at hdn
        exact hs.dist_walk n dn hdn
  · rw [relax1_of_not_improves himp]
    exact hs

theorem relaxAll_sound {g : Graph Nat} {start cur : Nat} {d : ℚ}
    (hwalk : ∃ l, Walk g start l cur d) :
    ∀ (edges : List (Nat × ℚ)) (st : DState), DSound g start st →
      (∀ e ∈ edges, e ∈ getNeighbors g cur) →
      DSound g start (relaxAll cur d edges st) := by
  intro edges
  induction edges with
  | nil => intro st hs _; exact hs
  | cons e es ih =>
    intro st hs hsub
    show DSound g start (relaxAll cur d es (relax1 cur d st e))
    exact ih _ (relax1_sound hs hwalk (hsub e (by simp)))
      (fun e' he' => hsub e' (by simp [he']))

theorem dLoop_sound {g : Graph Nat} {start endN : Nat} :
    ∀ (fuel : Nat) (st stF : DState), DSound g start st →
      dLoop g endN fuel st = some stF → DSound g start stF := by
  intro fuel
  induction fuel with
  | zero => intro st stF _ h; cases h
  | succ fuel ih =>
    intro st stF hs hrun
    unfold dLoop at hrun
    cases hpop : popMin st.pq with
    | none =>
      rw [hpop] at hrun
      cases hrun
      exact hs
    | some pr =>
      obtain ⟨⟨d, cur⟩, rest⟩ := pr
      rw [hpop] at hrun
      dsimp only at hrun
      obtain ⟨hmem, _, hrest, _⟩ := popMin_spec hpop
      have hrest_sub : ∀ x, x ∈ rest → x ∈ st.pq := by
        intro x hx
        rw [hrest] at hx
        exact mem_of_mem_erase hx
      by_cases hvis : cur ∈ st.visited
      · rw [if_pos hvis] at hrun
        exact ih { st with pq := rest } stF
          ⟨fun d' n hx => hs.pq_walk d' n (hrest_sub (d', n) hx),
            hs.dist_walk⟩ hrun
      · rw [if_neg hvis] at hrun
        have hs1 : DSound g start
            { st with pq := rest, visited := st.visited ++ [cur] } := by
          refine ⟨?_, hs.dist_walk⟩
          intro d' n hx
          exact hs.pq_walk d' n (hrest_sub (d', n) hx)
        by_cases hend : cur = endN
        · rw [if_pos hend] at hrun
          cases hrun
          exact hs1
        · rw [if_neg hend] at hrun
          refine ih _ _ ?_ hrun
          exact relaxAll_sound (hs.pq_walk d cur hmem) _ _ hs1
            (fun e' he' => he')

/-- C3: when both endpoints are in the graph but the destination is not
reachable from the start (no walk connects them), `findPath` fails with
`PathNotFound` and leaves the navigator state (hence also its cached last
path) unchanged — no partially built path is returned. -/
theorem findPath_disconnected :
    ∀ (gd : Nat → Nat → ℚ) (st : NavState) (s e : Nat),
      hasNode st.graph s = true → hasNode st.graph e = true →
      (¬ ∃ c, c ∈ walkCosts st.graph s e) →
      findPath gd st (some s) (some e) = (.error .pathNotFound, st) := by
  intro gd st s e hs he hreach
  have hdij : dijkstraShortestPath gd st.graph s e = .error .pathNotFound := by
    obtain ⟨stF, hrun⟩ := dLoop_some st.graph e (dijkstraFuel st.graph s)
      (dInit s) (by unfold dijkstraFuel; omega)
    have hsound := dLoop_sound _ _ _ (dInit_sound st.graph s) hrun
    unfold dijkstraShortestPath
    rw [hrun]
    dsimp only
    cases hdist : stF.dist e with
    | none => rfl
    | some dE =>
      exfalso
      obtain ⟨l, hl⟩ := hsound.dist_walk e dE hdist
      exact hreach ⟨dE, l, hl⟩
  simp only [findPath, findPathPure, hs, he, Bool.and_self, if_true, hdij]

/-- Witness for C3: on the graph with components {0, 1} and {2, 3} built by
`initializeGraph`, `findPath` from 0 to 3 fails with `PathNotFound` and the
state is unchanged. -/
theorem findPath_disconnected_witness :
    ∃ st : NavState,
      initializeGraph navigatorCtor [0, 1, 2, 3] [(0, 1), (2, 3)] [10, 5] =
        .ok st ∧
      findPath (fun _ _ => 0) st (some 0) (some 3) =
        (.error .pathNotFound, st) := by
  refine ⟨_, rfl, ?_⟩
  apply findPath_disconnected
  · rfl
  · rfl
  · rintro ⟨c, l, hl⟩
    -- a walk from 0 can only reach nodes 0 and 1 in this graph
    have hreach : ∀ (t : Nat) (l' : List Nat) (c' : ℚ),
        Walk (⟨[(0, [(1, 10)]), (1, [(0, 10)]), (2, [(3, 5)]),
          (3, [(2, 5)])]⟩ : Graph Nat) 0 l' t c' → t = 0 ∨ t = 1 := by
      intro t l' c' hw
      induction hw with
      | refl => left; rfl
      | @tail b' c' l'' rest w hwk he ih =>
        rcases ih with rfl | rfl
        · simp only [getNeighbors, findEntry] at he
          norm_num at he
          rcases he with ⟨rfl, -⟩
          right; rfl
        · simp only [getNeighbors, findEntry] at he
          norm_num at he
          rcases he with ⟨rfl, -⟩
          left; rfl
    have := hreach 3 l c (by exact hl)
    omega

/-- Shortest-distance specification: `d` is the least walk cost. -/
def IsShortestDist (g : Graph Nat) (start n : Nat) (d : ℚ) : Prop :=
  IsLeast (walkCosts g start n) d

/-- The data-model invariant of §3 of the specification: every edge weight is
nonnegative (the caller's responsibility; `Graph` does not validate it). -/
def NonnegWeights (g : Graph Nat) : Prop :=
  ∀ n : Nat, ∀ e ∈ getNeighbors g n, 0 ≤ e.2

/-- Frontier condition over a node set: every edge out of a node of `S` has
already relaxed its target. -/
def FrontierOn (g : Graph Nat) (S : List Nat) (st : DState) : Prop :=
  ∀ n ∈ S, ∀ e ∈ getNeighbors g n,
    ∃ dn dm, st.dist n = some dn ∧ st.dist e.1 = some dm ∧ dm ≤ dn + e.2

/-- Core invariant of the Dijkstra loop (everything except the frontier
condition, which the destination break may leave unestablished for the
final settled node). -/
structure DCore (g : Graph Nat) (start : Nat) (st : DState) : Prop where
  pq_walk : ∀ d n, (d, n) ∈ st.pq → ∃ l, Walk g start l n d
  dist_walk : ∀ n dn, st.dist n = some dn → ∃ l, Walk g start l n dn
  pq_dist_le : ∀ d n, (d, n) ∈ st.pq → ∃ dn, st.dist n = some dn ∧ dn ≤ d
  unvisited_pq : ∀ n dn, n ∉ st.visited → st.dist n = some dn →
    (dn, n) ∈ st.pq
  visited_short : ∀ n ∈ st.visited,
    ∃ dn, st.dist n = some dn ∧ IsShortestDist g start n dn
  start_le : ∃ d0, st.dist start = some d0 ∧ d0 ≤ 0
  prev_edge : ∀ n dn, n ≠ start → st.dist n = some dn →
    ∃ m w dm, st.prev n = some m ∧ (n, w) ∈ getNeighbors g m ∧
      m ∈ st.visited ∧ st.dist m = some dm ∧ dm + w = dn
  prev_before : ∀ i (hi : i < st.visited.length),
    st.visited.get ⟨i, hi⟩ ≠ start →
      ∃ m, st.prev (st.visited.get ⟨i, hi⟩) = some m ∧
        m ∈ st.visited.take i
  nodup : st.visited.Nodup

theorem dInit_core (g : Graph Nat) (start : Nat) :
    DCore g start (dInit start) := by
  have hsound := dInit_sound g start
  have hdist : ∀ n dn, (dInit start).dist n = some dn →
      n = start ∧ dn = 0 := by
    intro n dn hdn
    simp only [dInit] at hdn
    by_cases h : n = start
    · rw [if_pos h] at hdn
      cases hdn
      exact ⟨h, rfl⟩
    · rw [if_neg h] at hdn
      cases hdn
  refine ⟨hsound.pq_walk, hsound.dist_walk, ?_, ?_, ?_, ?_, ?_, ?_, ?_⟩
  · intro d n hmem
    simp only [dInit, List.mem_singleton, Prod.mk.injEq] at hmem
    obtain ⟨rfl, rfl⟩ := hmem
    exact ⟨0, by simp [dInit], le_refl 0⟩
  · intro n dn _ hdn
    obtain ⟨rfl, rfl⟩ := hdist n dn hdn
    simp [dInit]
  · intro n hn
    simp [dInit] at hn
  · exact ⟨0, by simp [dInit], le_refl 0⟩
  · intro n dn hne hdn
    obtain ⟨rfl, rfl⟩ := hdist n dn hdn
    exact absurd rfl hne
  · intro i hi
    simp [dInit] at hi
  · simp [dInit]

theorem dInit_frontier (g : Graph Nat) (start : Nat) :
    FrontierOn g (dInit start).visited (dInit start) := by
  intro n hn
  simp [dInit] at hn

theorem entryLe_fst_le {a b : ℚ × Nat} (h : entryLe a b = true) :
    a.1 ≤ b.1 := by
  by_cases h1 : a.1 < b.1
  · exact le_of_lt h1
  · by_cases h2 : b.1 < a.1
    · exfalso
      unfold entryLe at h
      rw [if_neg h1, if_pos h2] at h
      exact Bool.false_ne_true h
    · linarith

/-- Cover lemma: any walk to an unvisited node is bounded below by some queue
entry's key. -/
theorem dCover {g : Graph Nat} {start : Nat} {st : DState}
    (hc : DCore g start st) (hf : FrontierOn g st.visited st)
    (hw : NonnegWeights g) :
    ∀ (t : Nat) (l : List Nat) (c : ℚ), Walk g start l t c →
      t ∉ st.visited → ∃ x ∈ st.pq, x.1 ≤ c := by
  intro t l c hwalk
  induction hwalk with
  | refl =>
    intro hvis
    obtain ⟨d0, hd0, hle⟩ := hc.start_le
    exact ⟨(d0, start), hc.unvisited_pq start d0 hvis hd0, hle⟩
  | @tail b' c' l'' rest w hwk he ih =>
    intro hvis
    by_cases hb : b' ∈ st.visited
    · obtain ⟨db, hdb, hshort⟩ := hc.visited_short b' hb
      have hrest : db ≤ rest := hshort.2 ⟨l'', hwk⟩
      obtain ⟨dn, dm, hdn, hdm, hle⟩ := hf b' hb (c', w) he
      rw [hdb] at hdn
      cases hdn
      refine ⟨(dm, c'), hc.unvisited_pq c' dm hvis hdm, ?_⟩
      have hw0 : 0 ≤ w := hw b' (c', w) he
      simp only
      linarith
    · obtain ⟨x, hx, hxle⟩ := ih hb
      have hw0 : 0 ≤ w := hw b' (c', w) he
      exact ⟨x, hx, by linarith⟩

/-- When the minimum queue entry's node is unvisited, its key equals the
node's tentative distance and is the true shortest distance. -/
theorem pop_shortest {g : Graph Nat} {start : Nat} {st : DState}
    {d : ℚ} {cur : Nat} {rest : List (ℚ × Nat)}
    (hc : DCore g start st) (hf : FrontierOn g st.visited st)
    (hw : NonnegWeights g)
    (hpop : popMin st.pq = some ((d, cur), rest))
    (hcur : cur ∉ st.visited) :
    st.dist cur = some d ∧ IsShortestDist g start cur d := by
  obtain ⟨hmem, hmin, -, -⟩ := popMin_spec hpop
  obtain ⟨dc, hdc, hdcle⟩ := hc.pq_dist_le d cur hmem
  have hpq : (dc, cur) ∈ st.pq := hc.unvisited_pq cur dc hcur hdc
  have hle : d ≤ dc := entryLe_fst_le (hmin (dc, cur) hpq)
  have hdeq : dc = d := le_antisymm hdcle hle
  subst hdeq
  refine ⟨hdc, hc.pq_walk dc cur hmem, ?_⟩
  rintro c ⟨l, hwalk⟩
  obtain ⟨x, hx, hxle⟩ := dCover hc hf hw cur l c hwalk hcur
  have := entryLe_fst_le (hmin x hx)
  linarith

theorem skip_core {g : Graph Nat} {start : Nat} {st : DState}
    {d : ℚ} {cur : Nat} {rest : List (ℚ × Nat)}
    (hc : DCore g start st)
    (hpop : popMin st.pq = some ((d, cur), rest))
    (hcur : cur ∈ st.visited) :
    DCore g start { st with pq := rest } := by
  obtain ⟨-, -, hrest, -⟩ := popMin_spec hpop
  have hsub : ∀ x, x ∈ rest → x ∈ st.pq := by
    intro x hx
    rw [hrest] at hx
    exact mem_of_mem_erase hx
  refine ⟨?_, hc.dist_walk, ?_, ?_, hc.visited_short, hc.start_le,
    hc.prev_edge, hc.prev_before, hc.nodup⟩
  · intro d' n hmem
    exact hc.pq_walk d' n (hsub _ hmem)
  · intro d' n hmem
    exact hc.pq_dist_le d' n (hsub _ hmem)
  · intro n dn hn hdn
    have hne : (dn, n) ≠ (d, cur) := by
      intro hcontra
      cases hcontra
      exact hn hcur
    rw [hrest]
    exact (List.mem_erase_of_ne hne).mpr (hc.unvisited_pq n dn hn hdn)

theorem settle_core {g : Graph Nat} {start : Nat} {st : DState}
    {d : ℚ} {cur : Nat} {rest : List (ℚ × Nat)}
    (hc : DCore g start st)
    (hpop : popMin st.pq = some ((d, cur), rest))
    (hcur : cur ∉ st.visited)
    (hd : st.dist cur = some d)
    (hshort : IsShortestDist g start cur d) :
    DCore g start { st with pq := rest, visited := st.visited ++ [cur] } := by
  obtain ⟨-, -, hrest, -⟩ := popMin_spec hpop
  have hsub : ∀ x, x ∈ rest → x ∈ st.pq := by
    intro x hx
    rw [hrest] at hx
    exact mem_of_mem_erase hx
  refine ⟨?_, hc.dist_walk, ?_, ?_, ?_, hc.start_le, ?_, ?_, ?_⟩
  · intro d' n hmem
    exact hc.pq_walk d' n (hsub _ hmem)
  · intro d' n hmem
    exact hc.pq_dist_le d' n (hsub _ hmem)
  · intro n dn hn hdn
    simp only [List.mem_append, List.mem_singleton, not_or] at hn
    have hne : (dn, n) ≠ (d, cur) := by
      intro hcontra
      cases hcontra
      exact hn.2 rfl
    rw [hrest]
    exact (List.mem_erase_of_ne hne).mpr (hc.unvisited_pq n dn hn.1 hdn)
  · intro n hn
    rcases List.mem_append.mp hn with hn | hn
    · exact hc.visited_short n hn
    · rw [List.mem_singleton] at hn
      subst hn
      exact ⟨d, hd, hshort⟩
  · intro n dn hne hdn
    obtain ⟨m, w, dm, hprev, hedge, hmvis, hdm, heq⟩ :=
      hc.prev_edge n dn hne hdn
    exact ⟨m, w, dm, hprev, hedge, List.mem_append.mpr (Or.inl hmvis),
      hdm, heq⟩
  · intro i hi hne
    have hi' : i < st.visited.length + 1 := by simpa using hi
    by_cases hlt : i < st.visited.length
    · have hget : (st.visited ++ [cur]).get ⟨i, hi⟩ =
          st.visited.get ⟨i, hlt⟩ := by
        simp [List.getElem_append_left hlt]
      rw [hget] at hne ⊢
      obtain ⟨m, hprev, hm⟩ := hc.prev_before i hlt hne
      refine ⟨m, hprev, ?_⟩
      rw [List.take_append_of_le_length (le_of_lt hlt)]
      exact hm
    · have hieq : i = st.visited.length := by omega
      subst hieq
      have hget : (st.visited ++ [cur]).get ⟨st.visited.length, hi⟩ = cur := by
        simp
      rw [hget] at hne ⊢
      obtain ⟨m, w, dm, hprev, hedge, hmvis, hdm, heq⟩ :=
        hc.prev_edge cur d hne hd
      refine ⟨m, hprev, ?_⟩
      rw [List.take_append_of_le_length (le_refl _)]
      simpa using hmvis
  · rw [List.nodup_append]
    exact ⟨hc.nodup, List.nodup_singleton cur, by simpa using hcur⟩

theorem relax1_core {g : Graph Nat} {start cur : Nat} {d : ℚ} {st : DState}
    {e : Nat × ℚ}
    (hw : NonnegWeights g) (hc : DCore g start st)
    (hcv : cur ∈ st.visited) (hd : st.dist cur = some d)
    (he : e ∈ getNeighbors g cur) :
    DCore g start (relax1 cur d st e) ∧
    (relax1 cur d st e).visited = st.visited ∧
    (relax1 cur d st e).dist cur = some d ∧
    (∃ dm, (relax1 cur d st e).dist e.1 = some dm ∧ dm ≤ d + e.2) ∧
    (∀ n dn, st.dist n = some dn →
      ∃ dn', (relax1 cur d st e).dist n = some dn' ∧ dn' ≤ dn) ∧
    (∀ S : List Nat, (∀ x ∈ S, x ∈ st.visited) → FrontierOn g S st →
      FrontierOn g S (relax1 cur d st e)) := by
  have hshort : IsShortestDist g start cur d := by
    obtain ⟨dn, hdn, hs⟩ := hc.visited_short cur hcv
    rw [hd] at hdn
    cases hdn
    exact hs
  have hd0 : 0 ≤ d := by
    obtain ⟨l, hl⟩ := hshort.1
    exact Walk.cost_nonneg hw hl
  have hwpos : 0 ≤ e.2 := hw cur e he
  have hwalkm : ∃ l, Walk g start l e.1 (d + e.2) := by
    obtain ⟨l, hl⟩ := hshort.1
    exact ⟨l ++ [e.1], Walk.tail hl (by rwa [Prod.mk.eta])⟩
  by_cases himp : Improves st (d + e.2) e.1
  · have hmnv : e.1 ∉ st.visited := by
      intro hmv
      obtain ⟨dm, hdm, hsm⟩ := hc.visited_short e.1 hmv
      have hlem : dm ≤ d + e.2 := by
        apply hsm.2
        obtain ⟨l, hl⟩ := hwalkm
        exact ⟨l, hl⟩
      rcases himp with hnone | ⟨dm', hdm', hlt⟩
      · rw [hdm] at hnone
        cases hnone
      · rw [hdm] at hdm'
        cases hdm'
        linarith
    have hmnecur : e.1 ≠ cur := fun hh => hmnv (hh ▸ hcv)
    have hcurnem : cur ≠ e.1 := Ne.symm hmnecur
    have hmnestart : e.1 ≠ start := by
      intro hh
      obtain ⟨d0, hd0', hle0⟩ := hc.start_le
      rcases himp with hnone | ⟨dm', hdm', hlt⟩
      · rw [hh, hd0'] at hnone
        cases hnone
      · rw [hh, hd0'] at hdm'
        cases hdm'
        linarith
    rw [relax1_of_improves himp]
    refine ⟨⟨?_, ?_, ?_, ?_, ?_, ?_, ?_, ?_, ?_⟩, rfl, ?_, ?_, ?_, ?_⟩
    · intro d' n hmem
      rcases List.mem_append.mp hmem with hmem | hmem
      · exact hc.pq_walk d' n hmem
      · rw [List.mem_singleton] at hmem
        cases hmem
        exact hwalkm
    · intro n dn hdn
      simp only at hdn
      by_cases hn : n = e.1
      · rw [if_pos hn] at hdn
        cases hdn
        subst hn
        exact hwalkm
      · rw [if_neg hn] at hdn
        exact hc.dist_walk n dn hdn
    · intro d' n hmem
      rcases List.mem_append.mp hmem with hmem | hmem
      · obtain ⟨dm0, hdm0, hdm0le⟩ := hc.pq_dist_le d' n hmem
        by_cases hn : n = e.1
        · subst hn
          rcases himp with hnone | ⟨dm', hdm', hlt⟩
          · rw [hdm0] at hnone
            cases hnone
          · rw [hdm0] at hdm'
            cases hdm'
            exact ⟨d + e.2, by simp, by linarith⟩
        · exact ⟨dm0, by dsimp only; rw [if_neg hn]; exact hdm0, hdm0le⟩
      · rw [List.mem_singleton] at hmem
        cases hmem
        exact ⟨d + e.2, by simp, le_refl _⟩
    · intro n dn hn hdn
      simp only at hdn
      by_cases hne : n = e.1
      · rw [if_pos hne] at hdn
        cases hdn
        subst hne
        exact List.mem_append.mpr (Or.inr (by simp))
      · rw [if_neg hne] at hdn
        exact List.mem_append.mpr
          (Or.inl (hc.unvisited_pq n dn hn hdn))
    · intro n hn
      have hne : n ≠ e.1 := fun hh => hmnv (hh ▸ hn)
      obtain ⟨dn, hdn, hs⟩ := hc.visited_short n hn
      exact ⟨dn, by dsimp only; rw [if_neg hne]; exact hdn, hs⟩
    · obtain ⟨d0, hd0', hle0⟩ := hc.start_le
      exact ⟨d0, by dsimp only; rw [if_neg (Ne.symm hmnestart)]; exact hd0',
        hle0⟩
    · intro n dn hne hdn
      simp only at hdn
      by_cases hn : n = e.1
      · rw [if_pos hn] at hdn
        cases hdn
        subst hn
        refine ⟨cur, e.2, d, by simp, by rwa [Prod.mk.eta], hcv, ?_, rfl⟩
        dsimp only
        rw [if_neg hcurnem]
        exact hd
      · rw [if_neg hn] at hdn
        obtain ⟨m, w, dm, hprev, hedge, hmvis, hdm, heqd⟩ :=
          hc.prev_edge n dn hne hdn
        have hmne : m ≠ e.1 := fun hh => hmnv (hh ▸ hmvis)
        refine ⟨m, w, dm, ?_, hedge, hmvis, ?_, heqd⟩
        · simp [hn, hprev]
        · dsimp only
          rw [if_neg hmne]
          exact hdm
    · intro i hi hne
      dsimp only at hi hne ⊢
      obtain ⟨m, hprev, hm⟩ := hc.prev_before i hi hne
      have hvne : st.visited.get ⟨i, hi⟩ ≠ e.1 :=
        fun hh => hmnv (hh ▸ List.get_mem st.visited i hi)
      refine ⟨m, ?_, hm⟩
      simp only [List.get_eq_getElem] at hvne hprev ⊢
      rw [if_neg hvne]
      exact hprev
    · exact hc.nodup
    · dsimp only
      rw [if_neg hcurnem]
      exact hd
    · exact ⟨d + e.2, by simp, le_refl _⟩
    · intro n dn hdn
      by_cases hn : n = e.1
      · subst hn
        rcases himp with hnone | ⟨dm', hdm', hlt⟩
        · rw [hdn] at hnone
          cases hnone
        · rw [hdn] at hdm'
          cases hdm'
          exact ⟨d + e.2, by simp, le_of_lt hlt⟩
      · exact ⟨dn, by dsimp only; rw [if_neg hn]; exact hdn, le_refl dn⟩
    · intro S hS hf n hn e' he'
      obtain ⟨dn, dm, hdn, hdm, hle⟩ := hf n hn e' he'
      have hnne : n ≠ e.1 := fun hh => hmnv (hh ▸ hS n hn)
      refine ⟨dn, ?_⟩
      by_cases ht : e'.1 = e.1
      · rcases himp with hnone | ⟨dm', hdm', hlt⟩
        · rw [ht] at hdm
          rw [hdm] at hnone
          cases hnone
        · rw [ht] at hdm
          rw [hdm] at hdm'
          cases hdm'
          exact ⟨d + e.2, by dsimp only; rw [if_neg hnne]; exact hdn,
            by simp [ht], by linarith⟩
      · exact ⟨dm, by dsimp only; rw [if_neg hnne]; exact hdn,
          by dsimp only; rw [if_neg ht]; exact hdm, hle⟩
  · rw [relax1_of_not_improves himp]
    have hbound : ∃ dm, st.dist e.1 = some dm ∧ dm ≤ d + e.2 := by
      unfold Improves at himp
      push_neg at himp
      obtain ⟨h1, h2⟩ := himp
      cases hde : st.dist e.1 with
      | none => exact absurd hde h1
      | some dm =>
        exact ⟨dm, rfl, h2 dm hde⟩
    exact ⟨hc, rfl, hd, hbound, fun n dn h => ⟨dn, h, le_refl dn⟩,
      fun S _ hf => hf⟩

theorem relaxAll_core {g : Graph Nat} {start cur : Nat} {d : ℚ}
    (hw : NonnegWeights g) :
    ∀ (edges : List (Nat × ℚ)) (st : DState) (S : List Nat),
      DCore g start st → cur ∈ st.visited → st.dist cur = some d →
      (∀ x ∈ S, x ∈ st.visited) → FrontierOn g S st →
      (∀ e ∈ edges, e ∈ getNeighbors g cur) →
      DCore g start (relaxAll cur d edges st) ∧
      (relaxAll cur d edges st).visited = st.visited ∧
      (relaxAll cur d edges st).dist cur = some d ∧
      FrontierOn g S (relaxAll cur d edges st) ∧
      (∀ n dn, st.dist n = some dn →
        ∃ dn', (relaxAll cur d edges st).dist n = some dn' ∧ dn' ≤ dn) ∧
      (∀ e ∈ edges, ∃ dm, (relaxAll cur d edges st).dist e.1 = some dm ∧
        dm ≤ d + e.2) := by
  intro edges
  induction edges with
  | nil =>
    intro st S hc _ hd _ hf _
    exact ⟨hc, rfl, hd, hf, fun n dn h => ⟨dn, h, le_refl dn⟩, by simp⟩
  | cons e es ih =>
    intro st S hc hcv hd hS hf hsub
    obtain ⟨hc1, hv1, hd1, hb1, hmono1, hfr1⟩ :=
      relax1_core hw hc hcv hd (hsub e (by simp))
    have hS1 : ∀ x ∈ S, x ∈ (relax1 cur d st e).visited := by
      rw [hv1]
      exact hS
    have hcv1 : cur ∈ (relax1 cur d st e).visited := by
      rw [hv1]
      exact hcv
    obtain ⟨hc2, hv2, hd2, hf2, hmono2, hb2⟩ :=
      ih (relax1 cur d st e) S hc1 hcv1 hd1 hS1 (hfr1 S hS hf)
        (fun e' he' => hsub e' (by simp [he']))
    rw [show relaxAll cur d (e :: es) st =
      relaxAll cur d es (relax1 cur d st e) from rfl]
    refine ⟨hc2, by rw [hv2, hv1], hd2, hf2, ?_, ?_⟩
    · intro n dn hdn
      obtain ⟨dn', h1', hle1⟩ := hmono1 n dn hdn
      obtain ⟨dn'', h2', hle2⟩ := hmono2 n dn' h1'
      exact ⟨dn'', h2', le_trans hle2 hle1⟩
    · intro e' he'
      rcases List.mem_cons.mp he' with rfl | he'
      · obtain ⟨dm, hdm, hdmle⟩ := hb1
        obtain ⟨dm', hdm', hle'⟩ := hmono2 e'.1 dm hdm
        exact ⟨dm', hdm', le_trans hle' hdmle⟩
      · exact hb2 e' he'

theorem dLoop_core {g : Graph Nat} {start endN : Nat} (hw : NonnegWeights g) :
    ∀ (fuel : Nat) (st stF : DState),
      DCore g start st → FrontierOn g st.visited st →
      dLoop g endN fuel st = some stF →
      (DCore g start stF ∧ FrontierOn g stF.visited stF ∧ stF.pq = []) ∨
      (DCore g start stF ∧ endN ∈ stF.visited) := by
  intro fuel
  induction fuel with
  | zero => intro st stF _ _ h; cases h
  | succ fuel ih =>
    intro st stF hc hf hrun
    unfold dLoop at hrun
    cases hpop : popMin st.pq with
    | none =>
      rw [hpop] at hrun
      cases hrun
      exact Or.inl ⟨hc, hf, popMin_none hpop⟩
    | some pr =>
      obtain ⟨⟨d, cur⟩, rest⟩ := pr
      rw [hpop] at hrun
      dsimp only at hrun
      by_cases hvis : cur ∈ st.visited
      · rw [if_pos hvis] at hrun
        exact ih _ _ (skip_core hc hpop hvis) hf hrun
      · rw [if_neg hvis] at hrun
        obtain ⟨hd, hshort⟩ := pop_shortest hc hf hw hpop hvis
        have hc1 := settle_core hc hpop hvis hd hshort
        by_cases hend : cur = endN
        · rw [if_pos hend] at hrun
          cases hrun
          subst hend
          exact Or.inr ⟨hc1, by simp⟩
        · rw [if_neg hend] at hrun
          set st1 : DState :=
            { st with pq := rest, visited := st.visited ++ [cur] } with hst1
          have hcv1 : cur ∈ st1.visited := by
            rw [hst1]
            simp
          have hS1 : ∀ x ∈ st.visited, x ∈ st1.visited := by
            intro x hx
            rw [hst1]
            simp [hx]
          obtain ⟨hc2, hv2, hd2, hf2, hmono2, hb2⟩ :=
            relaxAll_core hw (getNeighbors g cur) st1
              st.visited hc1 hcv1 hd hS1 hf (fun e he => he)
          refine ih _ _ hc2 ?_ hrun
          rw [hv2, hst1]
          intro n hn e' he'
          rcases List.mem_append.mp hn with hn' | hn'
          · exact hf2 n hn' e' he'
          · rw [List.mem_singleton] at hn'
            subst hn'
            obtain ⟨dm, hdm, hdmle⟩ := hb2 e' he'
            exact ⟨d, dm, hd2, hdm, hdmle⟩

/-- At the final state of a run with nonnegative weights: a reachable
destination is visited and its tentative distance is the true shortest
distance. -/
theorem dLoop_final {g : Graph Nat} {start endN : Nat} {stF : DState}
    (hw : NonnegWeights g) {fuel : Nat}
    (hrun : dLoop g endN fuel (dInit start) = some stF)
    (hreach : ∃ c, c ∈ walkCosts g start endN) :
    ∃ dE, stF.dist endN = some dE ∧ IsShortestDist g start endN dE ∧
      endN ∈ stF.visited ∧ DCore g start stF := by
  rcases dLoop_core hw fuel (dInit start) stF (dInit_core g start)
      (dInit_frontier g start) hrun with ⟨hc, hf, hpq⟩ | ⟨hc, hmem⟩
  · obtain ⟨c, l, hwalk⟩ := hreach
    cases hdist : stF.dist endN with
    | none =>
      exfalso
      have hnv : endN ∉ stF.visited := by
        intro hv
        obtain ⟨dn, hdn, -⟩ := hc.visited_short endN hv
        rw [hdist] at hdn
        cases hdn
      obtain ⟨x, hx, -⟩ := dCover hc hf hw endN l c hwalk hnv
      rw [hpq] at hx
      cases hx
    | some dE =>
      have hmem : endN ∈ stF.visited := by
        by_contra hnv
        have hin := hc.unvisited_pq endN dE hnv hdist
        rw [hpq] at hin
        cases hin
      obtain ⟨dn, hdn, hs⟩ := hc.visited_short endN hmem
      have hde : dn = dE := by
        rw [hdist] at hdn
        exact (Option.some.inj hdn).symm
      rw [hde] at hs
      exact ⟨dE, rfl, hs, hmem, hc⟩
  · obtain ⟨dn, hdn, hs⟩ := hc.visited_short endN hmem
    exact ⟨dn, hdn, hs, hmem, hc⟩

/-- Correctness of the backtracking loop: for every visited node with a
finite tentative distance, with fuel exceeding its settling index the loop
succeeds and produces a walk from the start of exactly that cost. -/
theorem reconstructGo_ok {g : Graph Nat} {start : Nat} {stF : DState}
    (hw : NonnegWeights g) (hc : DCore g start stF) :
    ∀ (i : Nat), ∀ (hi : i < stF.visited.length), ∀ (fuel : Nat), i < fuel →
      ∀ dn, stF.dist (stF.visited.get ⟨i, hi⟩) = some dn →
      ∃ l, reconstructGo stF.prev start fuel (stF.visited.get ⟨i, hi⟩) =
          some (.ok l) ∧
        Walk g start l (stF.visited.get ⟨i, hi⟩) dn := by
  intro i
  induction i using Nat.strong_induction_on with
  | _ i ih =>
    intro hi fuel hfuel dn hdn
    by_cases hstart : stF.visited.get ⟨i, hi⟩ = start
    · have hd0 : dn = 0 := by
        obtain ⟨d0, hd0', hle⟩ := hc.start_le
        rw [hstart] at hdn
        rw [hdn] at hd0'
        cases hd0'
        obtain ⟨l, hl⟩ := hc.dist_walk start dn hdn
        have := Walk.cost_nonneg hw hl
        linarith
      cases fuel with
      | zero => omega
      | succ fuel =>
        refine ⟨[start], ?_, ?_⟩
        · unfold reconstructGo
          rw [if_pos hstart]
        · rw [hstart, hd0]
          exact Walk.refl start
    · obtain ⟨m, w, dm, hprev, hedge, hmvis, hdm, heq⟩ :=
        hc.prev_edge _ dn hstart hdn
      obtain ⟨m', hprev', hm'⟩ := hc.prev_before i hi hstart
      rw [hprev] at hprev'
      cases hprev'
      have hjex : ∃ j, ∃ hj : j < stF.visited.length, j < i ∧
          stF.visited.get ⟨j, hj⟩ = m := by
        obtain ⟨k, hk, hkm⟩ := List.mem_iff_getElem.mp hm'
        have hki : k < i := lt_of_lt_of_le hk (by
          rw [List.length_take]
          exact min_le_left i _)
        have hklen : k < stF.visited.length := lt_of_lt_of_le hk (by
          rw [List.length_take]
          exact min_le_right i _)
        refine ⟨k, hklen, hki, ?_⟩
        rw [List.get_eq_getElem]
        rw [List.getElem_take] at hkm
        exact hkm
      obtain ⟨j, hjlen, hji, hjm⟩ := hjex
      cases fuel with
      | zero => omega
      | succ fuel =>
        have hdm' : stF.dist (stF.visited.get ⟨j, hjlen⟩) = some dm := by
          rw [hjm]
          exact hdm
        obtain ⟨l', hl'run, hl'walk⟩ :=
          ih j hji hjlen fuel (by omega) dm hdm'
        rw [hjm] at hl'run hl'walk
        refine ⟨l' ++ [stF.visited.get ⟨i, hi⟩], ?_, ?_⟩
        · unfold reconstructGo
          rw [if_neg hstart, hprev]
          dsimp only
          rw [hl'run]
          rfl
        · rw [← heq]
          exact Walk.tail hl'walk hedge

/-- Full functional specification of `dijkstraShortestPath` on reachable
inputs with nonnegative weights: it returns a path whose node list is a walk
from start to destination and whose cached total is the least walk cost. -/
theorem dijkstraShortestPath_spec (gd : Nat → Nat → ℚ) {g : Graph Nat}
    {start endN : Nat} (hw : NonnegWeights g)
    (hreach : ∃ c, c ∈ walkCosts g start endN) :
    ∃ l dE, dijkstraShortestPath gd g start endN = .ok ⟨l, dE⟩ ∧
      Walk g start l endN dE ∧ IsShortestDist g start endN dE := by
  obtain ⟨stF, hrun⟩ := dLoop_some g endN (dijkstraFuel g start)
    (dInit start) (by unfold dijkstraFuel; omega)
  obtain ⟨dE, hdist, hshort, hmem, hc⟩ := dLoop_final hw hrun hreach
  obtain ⟨i, hi, hget⟩ := List.mem_iff_getElem.mp hmem
  have hget' : stF.visited.get ⟨i, hi⟩ = endN := by
    rw [List.get_eq_getElem]
    exact hget
  have hdn' : stF.dist (stF.visited.get ⟨i, hi⟩) = some dE := by
    rw [hget']
    exact hdist
  obtain ⟨l, hgo, hwalk⟩ := reconstructGo_ok hw hc i hi
    (stF.visited.length + 1) (by omega) dE hdn'
  rw [hget'] at hgo hwalk
  have hE0 : 0 ≤ dE := by
    obtain ⟨l0, hl0⟩ := hshort.1
    exact Walk.cost_nonneg hw hl0
  refine ⟨l, dE, ?_, hwalk, hshort⟩
  unfold dijkstraShortestPath
  rw [hrun]
  dsimp only
  rw [hdist]
  dsimp only
  unfold reconstructPath
  rw [hgo]
  unfold setTotalDistance
  dsimp only
  rw [if_neg (not_lt.mpr hE0), buildPath_nodes]

theorem findPathPure_spec (gd : Nat → Nat → ℚ) (st : NavState) {s e : Nat}
    (hw : NonnegWeights st.graph)
    (hs : hasNode st.graph s = true) (he : hasNode st.graph e = true)
    (hreach : ∃ c, c ∈ walkCosts st.graph s e) :
    ∃ l dE, findPathPure gd st (some s) (some e) = .ok ⟨l, dE⟩ ∧
      Walk st.graph s l e dE ∧ IsShortestDist st.graph s e dE := by
  obtain ⟨l, dE, hdij, hwalk, hshort⟩ := dijkstraShortestPath_spec gd hw hreach
  refine ⟨l, dE, ?_, hwalk, hshort⟩
  simp only [findPathPure, hs, he, Bool.and_self, if_true]
  exact hdij

theorem getNeighbors_addNode {T : Type} [DecidableEq T] (g : Graph T)
    (n m : T) : getNeighbors (addNode g n) m = getNeighbors g m := by
  unfold getNeighbors
  rw [findEntry_addNode]
  by_cases h : m = n
  · subst h
    rw [if_pos rfl]
    cases findEntry g m <;> simp
  · rw [if_neg h]

theorem getNeighbors_foldl_addNode {T : Type} [DecidableEq T] :
    ∀ (locs : List T) (g : Graph T) (n : T),
      getNeighbors (locs.foldl addNode g) n = getNeighbors g n := by
  intro locs
  induction locs with
  | nil => intro g n; rfl
  | cons x xs ih =>
    intro g n
    show getNeighbors (xs.foldl addNode (addNode g x)) n = _
    rw [ih, getNeighbors_addNode]

theorem addUndirectedEdge_neighbors_weight {T : Type} [DecidableEq T]
    (g : Graph T) (a b : T) (w : ℚ) (n : T) (e : T × ℚ)
    (hmem : e ∈ getNeighbors (addUndirectedEdge g a b w) n) :
    e ∈ getNeighbors g n ∨ e.2 = w := by
  unfold addUndirectedEdge at hmem
  by_cases hnb : n = b
  · subst hnb
    rw [getNeighbors_addEdge_self] at hmem
    rcases List.mem_append.mp hmem with hmem | hmem
    · by_cases hna : n = a
      · subst hna
        rw [getNeighbors_addEdge_self] at hmem
        rcases List.mem_append.mp hmem with hmem | hmem
        · exact Or.inl hmem
        · rw [List.mem_singleton] at hmem
          subst hmem
          exact Or.inr rfl
      · rw [getNeighbors_addEdge_other _ _ _ hna] at hmem
        exact Or.inl hmem
    · rw [List.mem_singleton] at hmem
      subst hmem
      exact Or.inr rfl
  · rw [getNeighbors_addEdge_other _ _ _ hnb] at hmem
    by_cases hna : n = a
    · subst hna
      rw [getNeighbors_addEdge_self] at hmem
      rcases List.mem_append.mp hmem with hmem | hmem
      · exact Or.inl hmem
      · rw [List.mem_singleton] at hmem
        subst hmem
        exact Or.inr rfl
    · rw [getNeighbors_addEdge_other _ _ _ hna] at hmem
      exact Or.inl hmem

theorem addConnections_nonneg (locs : List Nat) :
    ∀ (conns : List (Nat × Nat)) (ds : List ℚ) (g g2 : Graph Nat),
      (∀ n : Nat, ∀ e ∈ getNeighbors g n, 0 ≤ e.2) →
      (∀ x ∈ ds, 0 ≤ x) →
      addConnections locs g conns ds = some g2 →
      (∀ n : Nat, ∀ e ∈ getNeighbors g2 n, 0 ≤ e.2) := by
  intro conns
  induction conns with
  | nil =>
    intro ds g g2 hg _ hadd
    cases ds with
    | nil =>
      cases hadd
      exact hg
    | cons dd ds =>
      cases hadd
      exact hg
  | cons c cs ih =>
    intro ds g g2 hg hds hadd
    cases ds with
    | nil => cases hadd
    | cons dd ds =>
      unfold addConnections at hadd
      cases hf : locs.get? c.1 with
      | none =>
        rw [hf] at hadd
        cases hadd
      | some lf =>
        cases ht : locs.get? c.2 with
        | none =>
          rw [hf, ht] at hadd
          cases hadd
        | some lt =>
          rw [hf, ht] at hadd
          dsimp only at hadd
          refine ih ds (addUndirectedEdge g lf lt dd) g2 ?_ ?_ hadd
          · intro n e hmem
            rcases addUndirectedEdge_neighbors_weight g lf lt dd n e hmem
              with hmem' | hw'
            · exact hg n e hmem'
            · rw [hw']
              exact hds dd (by simp)
          · intro x hx
            exact hds x (by simp [hx])

theorem initializeGraph_nonneg {locs : List Nat} {conns : List (Nat × Nat)}
    {ds : List ℚ} {st : NavState}
    (hinit : initializeGraph navigatorCtor locs conns ds = .ok st)
    (hds : ∀ x ∈ ds, 0 ≤ x) : NonnegWeights st.graph := by
  unfold initializeGraph at hinit
  cases hadd : addConnections locs (locs.foldl addNode navigatorCtor.graph)
      conns ds with
  | none =>
    rw [hadd] at hinit
    cases hinit
  | some g2 =>
    rw [hadd] at hinit
    dsimp only at hinit
    cases hinit
    intro n e hmem
    refine addConnections_nonneg locs conns ds _ g2 ?_ hds hadd n e hmem
    intro n' e' hmem'
    rw [getNeighbors_foldl_addNode] at hmem'
    simp [navigatorCtor, emptyGraph, getNeighbors, findEntry] at hmem'

/-- C1: on a graph built by `initializeGraph` (whose edge weights are, per
the data model, nonnegative), for endpoints present in the graph with the
destination reachable from the start, `findPath` succeeds, caches the
returned path, and that path's node sequence is a walk in the graph from
start to destination whose cached total distance is the minimum walk cost
(and when several walks tie, the returned one still attains that least
cost). -/
theorem findPath_shortest :
    ∀ (gd : Nat → Nat → ℚ) (locs : List Nat) (conns : List (Nat × Nat))
      (ds : List ℚ) (st : NavState) (s e : Nat),
      initializeGraph navigatorCtor locs conns ds = .ok st →
      (∀ x ∈ ds, 0 ≤ x) →
      hasNode st.graph s = true → hasNode st.graph e = true →
      (∃ c, c ∈ walkCosts st.graph s e) →
      ∃ p : Path,
        findPath gd st (some s) (some e) =
          (.ok p, { st with lastPath := p }) ∧
        Walk st.graph s p.nodes e p.total ∧
        p.nodes.head? = some s ∧ p.nodes.getLast? = some e ∧
        IsLeast (walkCosts st.graph s e) p.total := by
  intro gd locs conns ds st s e hinit hds hs he hreach
  have hw := initializeGraph_nonneg hinit hds
  obtain ⟨l, dE, hpure, hwalk, hshort⟩ :=
    findPathPure_spec gd st hw hs he hreach
  refine ⟨⟨l, dE⟩, ?_, hwalk, hwalk.head_eq, hwalk.last_eq, hshort⟩
  unfold findPath
  rw [hpure]

/-- Witness for C1: on the graph with nodes {0, 1, 2} and undirected edges
0-1 of weight 10 and 1-2 of weight 5 built by `initializeGraph`,
`findPath(0, 2)` returns a least-cost walk, and concretely the node sequence
[0, 1, 2] with total distance 15. -/
theorem findPath_shortest_witness :
    ∃ st : NavState,
      initializeGraph navigatorCtor [0, 1, 2] [(0, 1), (1, 2)] [10, 5] =
        .ok st ∧
      (∃ p : Path,
        findPath (fun _ _ => 0) st (some 0) (some 2) =
          (.ok p, { st with lastPath := p }) ∧
        Walk st.graph 0 p.nodes 2 p.total ∧
        p.nodes.head? = some 0 ∧ p.nodes.getLast? = some 2 ∧
        IsLeast (walkCosts st.graph 0 2) p.total) ∧
      (findPath (fun _ _ => 0) st (some 0) (some 2)).1 =
        .ok ⟨[0, 1, 2], 15⟩ := by
  refine ⟨_, rfl, ?_, ?_⟩
  · apply findPath_shortest (fun _ _ => 0) [0, 1, 2] [(0, 1), (1, 2)] [10, 5]
      _ 0 2 rfl ?_ rfl rfl ?_
    · decide
    · refine ⟨(0 + 10) + 5, [0, 1, 2], ?_⟩
      have h01 : ((1 : Nat), (10 : ℚ)) ∈
          getNeighbors (⟨[(0, [(1, 10)]), (1, [(0, 10), (2, 5)]),
            (2, [(1, 5)])]⟩ : Graph Nat) 0 := by
        decide
      have h12 : ((2 : Nat), (5 : ℚ)) ∈
          getNeighbors (⟨[(0, [(1, 10)]), (1, [(0, 10), (2, 5)]),
            (2, [(1, 5)])]⟩ : Graph Nat) 1 := by
        decide
      exact Walk.tail (Walk.tail (Walk.refl 0) h01) h12
  · norm_num [findPath, findPathPure, dijkstraShortestPath, dijkstraFuel,
      dMeasure, dInit, dLoop, popMin, pqMinAux, entryLe, relaxAll, relax1,
      reconstructGo, reconstructPath, buildPath, addLocation,
      setTotalDistance, graphKeys, getNeighbors, findEntry, hasNode,
      navigatorCtor, initializeGraph, addConnections, addUndirectedEdge,
      addEdge, addNode, setEdges, emptyGraph, emptyPath, Except.map]

/-! ### Multi-waypoint routing (C2) -/

/-- Collapse consecutive duplicates: the waypoint sequence with coincident
consecutive waypoints identified, used to express "visits start, the vias in
order, then end". -/
def dedupConsec : List Nat → List Nat
  | [] => []
  | [a] => [a]
  | a :: b :: rest =>
    if a = b then dedupConsec (b :: rest) else a :: dedupConsec (b :: rest)

theorem dedupConsec_append_singleton :
    ∀ (pre : List Nat) (w0 w1 : Nat), pre.getLast? = some w0 →
      dedupConsec (pre ++ [w1]) =
        if w1 = w0 then dedupConsec pre else dedupConsec pre ++ [w1] := by
  intro pre
  induction pre with
  | nil => intro w0 w1 h; simp at h
  | cons a rest ih =>
    intro w0 w1 h
    cases rest with
    | nil =>
      simp only [List.getLast?_singleton, Option.some.injEq] at h
      subst h
      by_cases hw : w1 = a
      · subst hw
        simp [dedupConsec]
      · simp [dedupConsec, hw, Ne.symm hw]
    | cons b rest' =>
      have hlast : (b :: rest').getLast? = some w0 := by
        rw [← h]
        simp [List.getLast?_cons_cons]
      have ihb := ih w0 w1 hlast
      show dedupConsec (a :: (b :: rest' ++ [w1])) = _
      by_cases hab : a = b
      · rw [show dedupConsec (a :: (b :: rest' ++ [w1])) =
          dedupConsec (b :: rest' ++ [w1]) from by
            simp [dedupConsec, hab]]
        rw [show dedupConsec (a :: b :: rest') =
          dedupConsec (b :: rest') from by simp [dedupConsec, hab]]
        exact ihb
      · rw [show dedupConsec (a :: (b :: rest' ++ [w1])) =
          a :: dedupConsec (b :: rest' ++ [w1]) from by
            simp [dedupConsec, hab]]
        rw [show dedupConsec (a :: b :: rest') =
          a :: dedupConsec (b :: rest') from by simp [dedupConsec, hab]]
        rw [ihb]
        split
        · rfl
        · rfl

theorem head_last_sublist {l : List Nat} {a b : Nat}
    (ha : l.head? = some a) (hb : l.getLast? = some b) :
    List.Sublist (dedupConsec [a, b]) l := by
  cases l with
  | nil => cases ha
  | cons x t =>
    have hx : a = x := by
      simp only [List.head?_cons, Option.some.injEq] at ha
      exact ha.symm
    subst hx
    by_cases hab : a = b
    · subst hab
      rw [show dedupConsec [a, a] = [a] from by simp [dedupConsec]]
      exact List.singleton_sublist.mpr (by simp)
    · rw [show dedupConsec [a, b] = [a, b] from by simp [dedupConsec, hab]]
      cases t with
      | nil =>
        simp only [List.getLast?_singleton, Option.some.injEq] at hb
        exact absurd hb hab
      | cons y t' =>
        have hbmem : b ∈ y :: t' := by
          have hlast : (y :: t').getLast? = some b := by
            rw [← hb]
            simp [List.getLast?_cons_cons]
          obtain ⟨hne, heq⟩ := List.mem_getLast?_eq_getLast (l := y :: t') hlast
          exact heq ▸ List.getLast_mem hne
        exact List.cons_sublist_cons.mpr (List.singleton_sublist.mpr hbmem)

/-- Join form of `operator+`: when the accumulated path ends at the node the
next path starts with, the duplicate join node is dropped. -/
theorem pathCombine_nodes_join (gd : Nat → Nat → ℚ) (gid : Nat → Int)
    {p q : Path} {a : Nat} (ha : p.nodes.getLast? = some a)
    (hb : q.nodes.head? = some a) :
    (pathCombine gd gid p q).nodes = p.nodes ++ q.nodes.tail := by
  rw [pathCombine_eq, foldl_addLocation_nodes, buildPath_nodes]
  have hj : joinStartIndex gid p.nodes.getLast? q.nodes.head? = 1 := by
    rw [ha, hb]
    simp [joinStartIndex]
  rw [hj, List.drop_one]

theorem getLast?_append_nonempty {l1 l2 : List Nat} (h : l2 ≠ []) :
    (l1 ++ l2).getLast? = l2.getLast? := by
  rw [List.getLast?_append]
  cases hl : l2.getLast? with
  | none => exact absurd (List.getLast?_eq_none_iff.mp hl) h
  | some x => rfl

theorem head?_append_nonempty {l1 l2 : List Nat} (h : l1 ≠ []) :
    (l1 ++ l2).head? = l1.head? := by
  rw [List.head?_append]
  cases hl : l1.head? with
  | none =>
    exfalso
    cases l1 with
    | nil => exact h rfl
    | cons x t => cases hl
  | some x => rfl

/-- Each leg's single-pair Dijkstra succeeds (given presence and per-leg
reachability), and the leg paths run from leg source to leg target with
least-cost (hence nonnegative) totals. -/
theorem legPaths_spec (gd : Nat → Nat → ℚ) (st : NavState)
    (hw : NonnegWeights st.graph) :
    ∀ legs : List (Nat × Nat),
      (∀ pr ∈ legs, hasNode st.graph pr.1 = true ∧
        hasNode st.graph pr.2 = true ∧
        ∃ c, c ∈ walkCosts st.graph pr.1 pr.2) →
      ∃ ps, legPaths gd st legs = .ok ps ∧
        List.Forall₂ (fun (leg : Nat × Nat) (p : Path) =>
          p.nodes.head? = some leg.1 ∧ p.nodes.getLast? = some leg.2 ∧
          IsLeast (walkCosts st.graph leg.1 leg.2) p.total ∧
          0 ≤ p.total) legs ps := by
  intro legs
  induction legs with
  | nil => exact fun _ => ⟨[], rfl, List.Forall₂.nil⟩
  | cons leg rest ih =>
    intro hlegs
    obtain ⟨a, b⟩ := leg
    obtain ⟨hs, he, hreach⟩ := hlegs (a, b) (by simp)
    obtain ⟨l, dE, hpure, hwalk, hshort⟩ := findPathPure_spec gd st hw hs he hreach
    obtain ⟨ps, hps, hall⟩ := ih (fun pr hpr => hlegs pr (by simp [hpr]))
    refine ⟨⟨l, dE⟩ :: ps, ?_, ?_⟩
    · unfold legPaths
      rw [hpure]
      dsimp only
      rw [hps]
    · refine List.Forall₂.cons ⟨hwalk.head_eq, hwalk.last_eq, hshort, ?_⟩ hall
      exact Walk.cost_nonneg hw hwalk

/-- Stitching invariant: folding `operator+` over leg paths that chain
through the waypoints `w0 :: ws'` extends the accumulated node sequence,
preserves its head, ends at the final waypoint, and keeps the deduplicated
waypoint sequence a subsequence of the nodes. -/
theorem stitch_go (gd : Nat → Nat → ℚ) (gid : Nat → Int) :
    ∀ (ws' : List Nat) (w0 : Nat) (acc : Path) (ps : List Path)
      (pre : List Nat),
      acc.nodes ≠ [] → acc.nodes.getLast? = some w0 →
      pre.getLast? = some w0 →
      List.Sublist (dedupConsec pre) acc.nodes →
      List.Forall₂ (fun (leg : Nat × Nat) (p : Path) =>
        p.nodes.head? = some leg.1 ∧ p.nodes.getLast? = some leg.2)
        ((w0 :: ws').zip ws') ps →
      (ps.foldl (pathCombine gd gid) acc).nodes ≠ [] ∧
      (ps.foldl (pathCombine gd gid) acc).nodes.head? = acc.nodes.head? ∧
      (ps.foldl (pathCombine gd gid) acc).nodes.getLast? =
        (w0 :: ws').getLast? ∧
      List.Sublist (dedupConsec (pre ++ ws'))
        (ps.foldl (pathCombine gd gid) acc).nodes := by
  intro ws'
  induction ws' with
  | nil =>
    intro w0 acc ps pre hne hlast hprelast hsub hfa
    cases hfa
    refine ⟨hne, rfl, ?_, by simpa using hsub⟩
    show acc.nodes.getLast? = _
    rw [hlast]
    rfl
  | cons w1 rest ih =>
    intro w0 acc ps pre hne hlast hprelast hsub hfa
    rw [show (w0 :: w1 :: rest).zip (w1 :: rest) =
      (w0, w1) :: ((w1 :: rest).zip rest) from rfl] at hfa
    cases hfa with
    | cons hp1 hrest =>
    rename_i p1 ps'
    have hh1 : p1.nodes.head? = some w0 := hp1.1
    have hl1 : p1.nodes.getLast? = some w1 := hp1.2
    have h_nodes : (pathCombine gd gid acc p1).nodes =
        acc.nodes ++ p1.nodes.tail :=
      pathCombine_nodes_join gd gid hlast hh1
    have hne1 : (pathCombine gd gid acc p1).nodes ≠ [] := by
      rw [h_nodes]
      simp [hne]
    have hhead1 : (pathCombine gd gid acc p1).nodes.head? = acc.nodes.head? := by
      rw [h_nodes]
      exact head?_append_nonempty hne
    have hlast1 : (pathCombine gd gid acc p1).nodes.getLast? = some w1 := by
      rw [h_nodes]
      by_cases ht : p1.nodes.tail = []
      · rw [ht, List.append_nil, hlast]
        cases hp : p1.nodes with
        | nil => rw [hp] at hh1; cases hh1
        | cons x t =>
          rw [hp] at hh1 hl1 ht
          simp only [List.head?_cons, Option.some.injEq] at hh1
          simp only [List.tail_cons] at ht
          subst ht
          simp only [List.getLast?_singleton, Option.some.injEq] at hl1
          rw [← hh1, hl1]
      · rw [getLast?_append_nonempty ht]
        cases hp : p1.nodes with
        | nil => rw [hp] at hh1; cases hh1
        | cons x t =>
          rw [hp] at hl1
          have ht' : t ≠ [] := by
            intro hteq
            apply ht
            rw [hp, hteq]
            rfl
          simp only [List.tail_cons]
          cases t with
          | nil => exact absurd rfl ht'
          | cons y t' =>
            rw [← hl1]
            simp [List.getLast?_cons_cons]
    have hsub1 : List.Sublist (dedupConsec (pre ++ [w1]))
        (pathCombine gd gid acc p1).nodes := by
      rw [dedupConsec_append_singleton pre w0 w1 hprelast]
      by_cases hww : w1 = w0
      · rw [if_pos hww, h_nodes]
        exact hsub.trans (List.sublist_append_left _ _)
      · rw [if_neg hww, h_nodes]
        refine List.Sublist.append hsub ?_
        cases hp : p1.nodes with
        | nil => rw [hp] at hh1; cases hh1
        | cons x t =>
          rw [hp] at hh1 hl1
          simp only [List.head?_cons, Option.some.injEq] at hh1
          cases t with
          | nil =>
            simp only [List.getLast?_singleton, Option.some.injEq] at hl1
            exact absurd (hl1.symm.trans hh1) hww
          | cons y t' =>
            simp only [List.tail_cons]
            apply List.singleton_sublist.mpr
            have hyl : (y :: t').getLast? = some w1 := by
              rw [← hl1]
              simp [List.getLast?_cons_cons]
            obtain ⟨hne', heq⟩ := List.mem_getLast?_eq_getLast
              (l := y :: t') hyl
            exact heq ▸ List.getLast_mem hne'
    have hpre1last : (pre ++ [w1]).getLast? = some w1 := List.getLast?_concat _
    have hIH := ih w1 (pathCombine gd gid acc p1) ps' (pre ++ [w1])
      hne1 hlast1 hpre1last hsub1 hrest
    rw [show (p1 :: ps').foldl (pathCombine gd gid) acc =
      ps'.foldl (pathCombine gd gid) (pathCombine gd gid acc p1) from rfl]
    refine ⟨hIH.1, hIH.2.1.trans hhead1, ?_, ?_⟩
    · rw [hIH.2.2.1]
      simp [List.getLast?_cons_cons]
    · have := hIH.2.2.2
      rwa [List.append_assoc, List.singleton_append] at this

theorem forall₂_mem_right {α β : Type} {R : α → β → Prop} :
    ∀ {l1 : List α} {l2 : List β}, List.Forall₂ R l1 l2 →
      ∀ b ∈ l2, ∃ a ∈ l1, R a b := by
  intro l1 l2 h
  induction h with
  | nil => intro b hb; cases hb
  | cons hab htail ihh =>
    intro b hb
    rcases List.mem_cons.mp hb with rfl | hb'
    · exact ⟨_, by simp, hab⟩
    · obtain ⟨a, ha, hr⟩ := ihh b hb'
      exact ⟨a, by simp [ha], hr⟩

/-- C2: for the spec-modelled via-routing overload `findPathVias` (its
defining C++ body is absent from the sources), on a graph built by
`initializeGraph` with a non-empty via list whose vias all differ from the
start and the end, all waypoints present and every consecutive leg
reachable, the call succeeds and caches its result; the returned path starts
at `s`, ends at `e`, visits the waypoints `s`, the vias in order, then `e`
(the deduplicated waypoint sequence is a subsequence of the node sequence),
and its cached total distance is the sum of the per-leg shortest-path
distances (one least walk cost per leg, in order), not a geometric
re-derivation. -/
theorem findPathVias_spec :
    ∀ (gd : Nat → Nat → ℚ) (gid : Nat → Int) (locs : List Nat)
      (conns : List (Nat × Nat)) (ds : List ℚ) (st : NavState)
      (s e : Nat) (vias : List Nat),
      initializeGraph navigatorCtor locs conns ds = .ok st →
      (∀ x ∈ ds, 0 ≤ x) →
      vias ≠ [] → s ∉ vias → e ∉ vias →
      (∀ pr ∈ (s :: vias ++ [e]).zip (vias ++ [e]),
        hasNode st.graph pr.1 = true ∧ hasNode st.graph pr.2 = true ∧
        ∃ c, c ∈ walkCosts st.graph pr.1 pr.2) →
      ∃ p : Path,
        findPathVias gd gid st s e vias =
          (.ok p, { st with lastPath := p }) ∧
        p.nodes.head? = some s ∧ p.nodes.getLast? = some e ∧
        List.Sublist (dedupConsec (s :: vias ++ [e])) p.nodes ∧
        ∃ dists : List ℚ,
          List.Forall₂ (fun (leg : Nat × Nat) (d : ℚ) =>
            IsLeast (walkCosts st.graph leg.1 leg.2) d)
            ((s :: vias ++ [e]).zip (vias ++ [e])) dists ∧
          p.total = dists.sum := by
  intro gd gid locs conns ds st s e vias hinit hds hvne hsv hev hlegs
  have hw := initializeGraph_nonneg hinit hds
  obtain ⟨ps, hps, hall⟩ := legPaths_spec gd st hw _ hlegs
  have hcs : vias.contains s = false := by simpa using hsv
  have hce : vias.contains e = false := by simpa using hev
  have hvempty : vias.isEmpty = false := by
    cases vias with
    | nil => exact absurd rfl hvne
    | cons _ _ => rfl
  have hsum : 0 ≤ (ps.map Path.total).sum := by
    apply List.sum_nonneg
    intro x hx
    obtain ⟨q, hq, rfl⟩ := List.mem_map.mp hx
    obtain ⟨leg, _, hprop⟩ := forall₂_mem_right hall q hq
    exact hprop.2.2.2
  obtain ⟨w1, wrest, hve⟩ : ∃ w1 wrest, vias ++ [e] = w1 :: wrest := by
    cases hvv : vias ++ [e] with
    | nil => exact absurd hvv (by simp)
    | cons a t => exact ⟨a, t, rfl⟩
  have hlegseq : (s :: vias ++ [e]).zip (vias ++ [e]) =
      (s, w1) :: ((w1 :: wrest).zip wrest) := by
    rw [show s :: vias ++ [e] = s :: (vias ++ [e]) from rfl, hve]
    rfl
  have hall2 := hall
  rw [hlegseq] at hall2
  cases hall2 with
  | cons hp1 hrest =>
  rename_i p1 ps'
  have hall3 : List.Forall₂ (fun (leg : Nat × Nat) (p : Path) =>
      p.nodes.head? = some leg.1 ∧ p.nodes.getLast? = some leg.2 ∧
      IsLeast (walkCosts st.graph leg.1 leg.2) p.total ∧ 0 ≤ p.total)
      ((s, w1) :: ((w1 :: wrest).zip wrest)) (p1 :: ps') :=
    List.Forall₂.cons hp1 hrest
  have hh1 : p1.nodes.head? = some s := hp1.1
  have hl1 : p1.nodes.getLast? = some w1 := hp1.2.1
  have hne1 : p1.nodes ≠ [] := by
    intro h
    rw [h] at hh1
    cases hh1
  have hfa' : List.Forall₂ (fun (leg : Nat × Nat) (p : Path) =>
      p.nodes.head? = some leg.1 ∧ p.nodes.getLast? = some leg.2)
      ((w1 :: wrest).zip wrest) ps' :=
    List.Forall₂.imp (fun a b h => ⟨h.1, h.2.1⟩) hrest
  have hsubpre : List.Sublist (dedupConsec [s, w1]) p1.nodes :=
    head_last_sublist hh1 hl1
  have hstitch := stitch_go gd gid wrest w1 p1 ps' [s, w1] hne1 hl1
    (by simp) hsubpre hfa'
  have hset : setTotalDistance (stitchLegs gd gid (p1 :: ps'))
      ((p1 :: ps').map Path.total).sum =
      .ok ⟨(stitchLegs gd gid (p1 :: ps')).nodes,
        ((p1 :: ps').map Path.total).sum⟩ := by
    unfold setTotalDistance
    rw [if_neg (not_lt.mpr hsum)]
  have hrun : findPathVias gd gid st s e vias =
      (.ok (⟨(stitchLegs gd gid (p1 :: ps')).nodes,
          ((p1 :: ps').map Path.total).sum⟩ : Path),
        { st with lastPath := ⟨(stitchLegs gd gid (p1 :: ps')).nodes,
          ((p1 :: ps').map Path.total).sum⟩ }) := by
    unfold findPathVias
    simp only [hcs, hce, hvempty, Bool.or_self, Bool.false_eq_true, if_false]
    rw [show ((s :: vias ++ [e] : List Nat)).tail = vias ++ [e] from rfl]
    rw [hps]
    dsimp only
    rw [hset]
  refine ⟨⟨(stitchLegs gd gid (p1 :: ps')).nodes,
    ((p1 :: ps').map Path.total).sum⟩, hrun, ?_, ?_, ?_, ?_⟩
  · exact hstitch.2.1.trans hh1
  · have hlaste : (w1 :: wrest).getLast? = some e := by
      rw [← hve]
      exact List.getLast?_concat _
    exact hstitch.2.2.1.trans hlaste
  · have hsubfin := hstitch.2.2.2
    have heq : [s, w1] ++ wrest = s :: vias ++ [e] := by
      rw [show ([s, w1] ++ wrest : List Nat) = s :: (w1 :: wrest) from rfl,
        ← hve, List.cons_append]
    rwa [heq] at hsubfin
  · refine ⟨(p1 :: ps').map Path.total, ?_, rfl⟩
    rw [hlegseq]
    exact List.forall₂_map_right_iff.mpr
      (List.Forall₂.imp (fun a b h => h.2.2.1) hall3)

/-- Witness for C2: on the graph with nodes {0, 1, 2, 3} and undirected
edges 0-1 of weight 10, 1-2 of weight 5 and 2-3 of weight 10 (no direct 0-3
edge), `findPathVias` from 0 to 3 via [1, 2] satisfies the via-routing
specification, and concretely returns the node sequence [0, 1, 2, 3] with
total distance 25. -/
theorem findPathVias_spec_witness :
    ∃ st : NavState,
      initializeGraph navigatorCtor [0, 1, 2, 3] [(0, 1), (1, 2), (2, 3)]
        [10, 5, 10] = .ok st ∧
      (∃ p : Path,
        findPathVias (fun _ _ => 0) (fun n => (n : Int)) st 0 3 [1, 2] =
          (.ok p, { st with lastPath := p }) ∧
        p.nodes.head? = some 0 ∧ p.nodes.getLast? = some 3 ∧
        List.Sublist (dedupConsec (0 :: [1, 2] ++ [3])) p.nodes ∧
        ∃ dists : List ℚ,
          List.Forall₂ (fun (leg : Nat × Nat) (d : ℚ) =>
            IsLeast (walkCosts st.graph leg.1 leg.2) d)
            ((0 :: [1, 2] ++ [3]).zip ([1, 2] ++ [3])) dists ∧
          p.total = dists.sum) ∧
      (findPathVias (fun _ _ => 0) (fun n => (n : Int)) st 0 3 [1, 2]).1 =
        .ok ⟨[0, 1, 2, 3], 25⟩ := by
  refine ⟨_, rfl, ?_, ?_⟩
  · apply findPathVias_spec (fun _ _ => 0) (fun n => (n : Int))
      [0, 1, 2, 3] [(0, 1), (1, 2), (2, 3)] [10, 5, 10] _ 0 3 [1, 2]
      rfl ?_ ?_ ?_ ?_ ?_
    · decide
    · decide
    · decide
    · decide
    · intro pr hpr
      have hmem : pr ∈ [((0 : Nat), (1 : Nat)), (1, 2), (2, 3)] := hpr
      have h01 : ((1 : Nat), (10 : ℚ)) ∈
          getNeighbors (⟨[(0, [(1, 10)]), (1, [(0, 10), (2, 5)]),
            (2, [(1, 5), (3, 10)]), (3, [(2, 10)])]⟩ : Graph Nat) 0 := by
        decide
      have h12 : ((2 : Nat), (5 : ℚ)) ∈
          getNeighbors (⟨[(0, [(1, 10)]), (1, [(0, 10), (2, 5)]),
            (2, [(1, 5), (3, 10)]), (3, [(2, 10)])]⟩ : Graph Nat) 1 := by
        decide
      have h23 : ((3 : Nat), (10 : ℚ)) ∈
          getNeighbors (⟨[(0, [(1, 10)]), (1, [(0, 10), (2, 5)]),
            (2, [(1, 5), (3, 10)]), (3, [(2, 10)])]⟩ : Graph Nat) 2 := by
        decide
      simp only [List.mem_cons, List.not_mem_nil, or_false] at hmem
      rcases hmem with rfl | rfl | rfl
      · exact ⟨by decide, by decide,
          0 + 10, [0] ++ [1], Walk.tail (Walk.refl 0) h01⟩
      · exact ⟨by decide, by decide,
          0 + 5, [1] ++ [2], Walk.tail (Walk.refl 1) h12⟩
      · exact ⟨by decide, by decide,
          0 + 10, [2] ++ [3], Walk.tail (Walk.refl 2) h23⟩
  · norm_num [findPathVias, legPaths, stitchLegs, pathCombine, joinStartIndex,
      findPath, findPathPure, dijkstraShortestPath, dijkstraFuel,
      dMeasure, dInit, dLoop, popMin, pqMinAux, entryLe, relaxAll, relax1,
      reconstructGo, reconstructPath, buildPath, addLocation,
      setTotalDistance, graphKeys, getNeighbors, findEntry, hasNode,
      navigatorCtor, initializeGraph, addConnections, addUndirectedEdge,
      addEdge, addNode, setEdges, emptyGraph, emptyPath, Except.map]

end Campus
